import Mathlib

/-!
Verification of the suds dynamic-object core (`src/suds/sudsobject.py`).

The module defines an insertion-ordered dynamic record type (`Object`), a
scalar box (`Property`), a metadata sidecar (`Metadata`), a factory, and a
recursive pretty printer (`Printer`).  This file gives a shallow embedding of
that code and proves the behavioural claims about it.

Modelling notes:
- A suds object instance is embedded as `Value.vobj cls keylist storage`:
  `cls` is the runtime class (base `Object`, `Metadata`, a named `Object`
  subclass made by `Factory.subclass`, or a named `Property` subclass),
  `keylist` is the instance's `__keylist__`, and `storage` is the part of the
  instance `__dict__` that holds embedded values.  The bookkeeping entries
  `__keylist__` and `__printer__` of `__dict__` are not values of the object
  model and are carried by the constructor arguments instead; the
  `__metadata__` entry is itself a suds object and is kept in `storage`.
  Class-level attributes (methods) are outside the model: attribute lookup is
  modelled as instance-storage lookup.
- Python `dict` values are embedded as ordered association lists
  (`Value.vdict`); the source's Python 2 dictionaries have arbitrary
  iteration order, which the spec records as deliberate nondeterminism, and
  the list order stands for one such order.
- Python `list`/`tuple` values are both embedded as `Value.vlist`.
- The recursive printer functions are total Lean functions obtained by fuel
  recursion: each `...F` function takes a fuel argument and returns
  `Res.out` when the fuel runs out; `Res.err` models a raised
  `AttributeError` (the `MissingFieldError` of the spec); the fuel-free
  wrappers (`processv`, `complexv`, ...) apply a provably sufficient fuel, so
  `Res.out` never occurs for them.
-/

/-- Runtime class of an embedded suds object: the base class `Object`, the
`Metadata` class, a named subclass of `Object` made by `Factory.subclass`, or
a named subclass of `Property` made by `Factory.property`. -/
inductive Cls : Type where
  | base : Cls
  | metadata : Cls
  | sub (name : String) : Cls
  | prop (name : String) : Cls
deriving DecidableEq

/-- The `__name__` of the class (used by `Printer.print_complex` and
`Printer.print_property`). -/
def Cls.clsName : Cls → String
  | .base => "Object"
  | .metadata => "Metadata"
  | .sub name => name
  | .prop name => name

/-- Embedded Python values handled by the sudsobject core: `None`, integers,
strings, lists/tuples, dicts, and suds objects. -/
inductive Value : Type where
  | vnone : Value
  | vint (n : Int) : Value
  | vstr (s : String) : Value
  | vlist (xs : List Value) : Value
  | vdict (es : List (String × Value)) : Value
  | vobj (c : Cls) (kl : List String) (st : List (String × Value)) : Value

mutual

/-- Structural size of a value, used to compute sufficient fuel for the
printer functions. -/
def rankV : Value → Nat
  | .vnone => 1
  | .vint _ => 1
  | .vstr _ => 1
  | .vlist xs => 1 + rankL xs
  | .vdict es => 1 + rankP es
  | .vobj _ kl st => 1 + kl.length + rankP st

/-- Structural size of a list of values. -/
def rankL : List Value → Nat
  | [] => 1
  | x :: xs => 1 + rankV x + rankL xs

/-- Structural size of an association list of values. -/
def rankP : List (String × Value) → Nat
  | [] => 1
  | (_, v) :: es => 1 + rankV v + rankP es

end

/-- Result of a fueled computation: `out` means the fuel ran out (never the
case for the fuel bounds used by the wrappers), `err` models a raised
`AttributeError`/`MissingFieldError`, `ok` is a normal return. -/
inductive Res (α : Type) : Type where
  | out : Res α
  | err : Res α
  | ok (val : α) : Res α
deriving DecidableEq

/-- Lookup in an instance `__dict__` (association list). -/
def lookupStore : List (String × Value) → String → Option Value
  | [], _ => none
  | (k, v) :: rest, name => if k = name then some v else lookupStore rest name

/-- Assignment into an instance `__dict__`: overwrite in place if the key
exists, append otherwise. -/
def storePut : List (String × Value) → String → Value → List (String × Value)
  | [], name, val => [(name, val)]
  | (k, v) :: rest, name, val =>
      if k = name then (k, val) :: rest else (k, v) :: storePut rest name val

/-- The reserved-name ("builtin") test of `Object.__setattr__`:
`name.startswith('__') and name.endswith('__')` (expressed on the character
list of the name). -/
def reserved (name : String) : Bool :=
  List.isPrefixOf "__".data name.data && List.isSuffixOf "__".data name.data

/-- `Object.__setattr__`: if the name is not reserved and not already a key,
append it to `__keylist__`; always write the value into `__dict__`. -/
def setAttr : Value → String → Value → Value
  | .vobj c kl st, name, val =>
      let kl' := if !(reserved name) && !(kl.contains name) then kl ++ [name] else kl
      .vobj c kl' (storePut st name val)
  | v, _, _ => v

/-- `Object.__getitem__` (via `getattr`): read a name from instance storage.
`none` models the raised `AttributeError`/`MissingFieldError`. -/
def getAttr : Value → String → Option Value
  | .vobj _ _ st, name => lookupStore st name
  | _, _ => none

/-- `Object.__iter__`: iteration yields `__keylist__` in order. -/
def objKeys : Value → List String
  | .vobj _ kl _ => kl
  | _ => []

/-- `Object.__len__`: the number of visible fields. -/
def objLen : Value → Nat
  | .vobj _ kl _ => kl.length
  | _ => 0

/-- `Object.__contains__`. -/
def objContains (v : Value) (name : String) : Bool :=
  (objKeys v).contains name

/-- `isinstance(x, Object)`. -/
def Value.isObject : Value → Bool
  | .vobj .. => true
  | _ => false

/-- `isinstance(x, dict)`. -/
def Value.isDict : Value → Bool
  | .vdict _ => true
  | _ => false

/-- `isinstance(x, (list, tuple))`. -/
def Value.isListTup : Value → Bool
  | .vlist _ => true
  | _ => false

/-- `isinstance(x, Property)`. -/
def Value.isPropertyInst : Value → Bool
  | .vobj (.prop _) _ _ => true
  | _ => false

/-- `Metadata()`: `Metadata.__init__` sets only `__keylist__` and
`__printer__`; it creates no metadata sidecar of its own. -/
def metadataNew : Value := .vobj .metadata [] []

/-- `Object()`: `Object.__init__` sets `__keylist__`, `__printer__`, and a
fresh `__metadata__` sidecar; the reserved names stay out of `__keylist__`. -/
def objectNew : Value := .vobj .base [] [("__metadata__", metadataNew)]

/-- An instance of `Factory.subclass(name, Object)`: the generated
`__init__` just calls `Object.__init__`. -/
def subNew (name : String) : Value := .vobj (.sub name) [] [("__metadata__", metadataNew)]

/-- An instance of `Factory.subclass(name, Property)` as built by
`Factory.property(name, value)`: `Property.__init__` calls
`Object.__init__` and then assigns `self.value = value`. -/
def propertyNew (name : String) (v : Value) : Value :=
  setAttr (.vobj (.prop name) [] [("__metadata__", metadataNew)]) "value" v

/-- Assign a list of fields in order via `setAttr` (the population loop of
`Factory.object`). -/
def setFields : Value → List (String × Value) → Value
  | r, [] => r
  | r, (k, v) :: ps => setFields (setAttr r k v) ps

/-- `Factory.object(classname, dict)`: build a plain or named record and
populate it field by field (in the order the input container yields). -/
def factoryObject (cn : Option String) (ps : List (String × Value)) : Value :=
  setFields (match cn with | some nm => subNew nm | none => objectNew) ps

/-- Read the values of the given keys from storage, in key order; `none`
models the `AttributeError` raised on the first missing key. -/
def getattrs (st : List (String × Value)) : List String → Option (List (String × Value))
  | [] => some []
  | k :: ks =>
    match lookupStore st k, getattrs st ks with
    | some u, some rest => some ((k, u) :: rest)
    | _, _ => none

/-- Module-level `items(sobject)`: `(k, sobject[k])` for `k` in iteration
order.  It is also applied to Python dicts inside the printer. -/
def itemsOf : Value → Option (List (String × Value))
  | .vobj _ kl st => getattrs st kl
  | .vdict es => some es
  | _ => none

/-- Module-level `asdict(sobject)` wrapped as a value: `dict(items(sobject))`
for suds objects; any other value is left unchanged (the printer only
converts when `isinstance(object, Object)` holds). -/
def asdictVal : Value → Option Value
  | .vobj _ kl st => (getattrs st kl).map Value.vdict
  | v => some v

/-- `Property.items()`: base iteration with the reserved `value` field
filtered out. -/
def propertyItems (v : Value) : Option (List (String × Value)) :=
  (itemsOf v).map (List.filter (fun p => p.1 != "value"))

/-- `Property.get()`. -/
def propGet (v : Value) : Option Value := getAttr v "value"

/-- The indentation function of `Printer.__init__`:
`lambda n: '%*s' % (n*3, ' ')`.  Python pads the one-character string
`' '` to width `|3*n|`, so the result is `max |3*n| 1` spaces; in
particular level 0 yields a single space. -/
def indent (n : Int) : String :=
  String.join (List.replicate (max (3 * n).natAbs 1) " ")

mutual

/-- Modelled from the spec: `tostr` lives in `suds/__init__.py`, which is not
under `src/`; per the spec it returns the value's "natural inline string
form", i.e. Python `str()`.  `str` of a suds object re-enters the printer and
is unreachable from the printer (objects are converted by `asdict` first), so
that case is mapped to the empty string. -/
def sudsTostrF : Nat → Value → String
  | 0, _ => ""
  | f + 1, v =>
    match v with
    | .vnone => "None"
    | .vint n => toString n
    | .vstr s => s
    | .vlist xs => "[" ++ String.intercalate ", " (pyReprListF f xs) ++ "]"
    | .vdict es => "\x7b" ++ String.intercalate ", " (pyReprPairsF f es) ++ "\x7d"
    | .vobj .. => ""

/-- Modelled from the spec: Python `repr`, as used by `str` on the elements
of lists and dicts to build their natural inline form (strings are quoted). -/
def pyReprF : Nat → Value → String
  | 0, _ => ""
  | f + 1, v =>
    match v with
    | .vnone => "None"
    | .vint n => toString n
    | .vstr s => "\x27" ++ s ++ "\x27"
    | .vlist xs => "[" ++ String.intercalate ", " (pyReprListF f xs) ++ "]"
    | .vdict es => "\x7b" ++ String.intercalate ", " (pyReprPairsF f es) ++ "\x7d"
    | .vobj .. => ""

/-- Element reprs of a list value. -/
def pyReprListF : Nat → List Value → List String
  | 0, _ => []
  | _ + 1, [] => []
  | f + 1, x :: xs => pyReprF f x :: pyReprListF f xs

/-- Entry reprs (`'key': value`) of a dict value. -/
def pyReprPairsF : Nat → List (String × Value) → List String
  | 0, _ => []
  | _ + 1, [] => []
  | f + 1, (k, u) :: es => ("\x27" ++ k ++ "\x27: " ++ pyReprF f u) :: pyReprPairsF f es

end

/-- Modelled from the spec: `tostr(x)` with sufficient fuel. -/
def sudsTostr (v : Value) : String := sudsTostrF (rankV v) v

/-- The tail of `Printer.process` after the complexity and `Property`
dispatch: a non-empty dict or list/tuple prints as its natural string form,
an empty one as `<empty>`, anything else as `(str(x))`. -/
def processTail : Value → Res String
  | .vdict es => if es.length > 0 then .ok (sudsTostr (.vdict es)) else .ok "<empty>"
  | .vlist xs => if xs.length > 0 then .ok (sudsTostr (.vlist xs)) else .ok "<empty>"
  | w => .ok ("(" ++ sudsTostr w ++ ")")

mutual

/-- `Printer.complex(object)`, fueled. -/
def complexF : Nat → Value → Res Bool
  | 0, _ => .out
  | f + 1, v =>
    match v with
    | .vobj _ kl st =>
        if kl.length > 1 then .ok true
        else complexKeysF f st kl
    | .vdict es =>
        if es.length > 1 then .ok true
        else complexPairsF f es
    | .vlist xs =>
        if xs.length > 1 then .ok true
        else complexListF f xs
    | _ => .ok false

/-- The `for item in items(object)` loop of `Printer.complex` on a suds
object: look each key up lazily and stop at the first complex value. -/
def complexKeysF : Nat → List (String × Value) → List String → Res Bool
  | 0, _, _ => .out
  | _ + 1, _, [] => .ok false
  | f + 1, st, k :: ks =>
    match lookupStore st k with
    | none => .err
    | some u =>
      match complexF f u with
      | .out => .out
      | .err => .err
      | .ok true => .ok true
      | .ok false => complexKeysF f st ks

/-- The `for item in items(object)` loop of `Printer.complex` on a dict. -/
def complexPairsF : Nat → List (String × Value) → Res Bool
  | 0, _ => .out
  | _ + 1, [] => .ok false
  | f + 1, (_, u) :: es =>
    match complexF f u with
    | .out => .out
    | .err => .err
    | .ok true => .ok true
    | .ok false => complexPairsF f es

/-- The `for c in object` loop of `Printer.complex` on a list/tuple. -/
def complexListF : Nat → List Value → Res Bool
  | 0, _ => .out
  | _ + 1, [] => .ok false
  | f + 1, x :: xs =>
    match complexF f x with
    | .out => .out
    | .err => .err
    | .ok true => .ok true
    | .ok false => complexListF f xs

/-- `Printer.process(object, n, nl)`, fueled. -/
def processF : Nat → Value → Int → Bool → Res String
  | 0, _, _, _ => .out
  | f + 1, v, n, nl =>
    match v with
    | .vnone => .ok "None"
    | _ =>
      match complexF f v with
      | .out => .out
      | .err => .err
      | .ok c =>
        if c && (v.isObject || v.isDict) then printComplexF f v (n + 2) nl
        else if c && v.isListTup then
          match v with
          | .vlist xs => printCollItemsF f xs (n + 2)
          | _ => .err
        else if v.isPropertyInst then printPropertyF f v
        else
          match asdictVal v with
          | none => .err
          | some w => processTail w

/-- `Printer.print_complex(d, n, nl)`, fueled: optional newline-plus-indent
prefix, `(ClassName)` for proper suds subclasses, then the brace block. -/
def printComplexF : Nat → Value → Int → Bool → Res String
  | 0, _, _, _ => .out
  | f + 1, v, n, nl =>
    let pre := if nl then "\n" ++ indent n else ""
    match v with
    | .vobj c _ _ =>
      let head := if c = Cls.base then "" else "(" ++ c.clsName ++ ")"
      match v with
      | .vobj _ kl st =>
        match printItemsObjF f st kl n with
        | .out => .out
        | .err => .err
        | .ok body => .ok (pre ++ head ++ "\x7b" ++ body ++ "\n" ++ indent n ++ "\x7d")
      | _ => .err
    | .vdict es =>
      match printItemsDictF f es n with
      | .out => .out
      | .err => .err
      | .ok body => .ok (pre ++ "\x7b" ++ body ++ "\n" ++ indent n ++ "\x7d")
    | _ => .err

/-- The `for item in items(d)` loop of `Printer.print_complex` on a suds
object: one line per visible field, `[]`-tagged for sequence values. -/
def printItemsObjF : Nat → List (String × Value) → List String → Int → Res String
  | 0, _, _, _ => .out
  | _ + 1, _, [], _ => .ok ""
  | f + 1, st, k :: ks, n =>
    match lookupStore st k with
    | none => .err
    | some u =>
      match processF f u n true with
      | .out => .out
      | .err => .err
      | .ok s =>
        match printItemsObjF f st ks n with
        | .out => .out
        | .err => .err
        | .ok rest =>
          let tag := if u.isListTup then k ++ "[]" else k
          .ok ("\n" ++ indent (n + 1) ++ tag ++ " = " ++ s ++ rest)

/-- The `for item in items(d)` loop of `Printer.print_complex` on a dict. -/
def printItemsDictF : Nat → List (String × Value) → Int → Res String
  | 0, _, _ => .out
  | _ + 1, [], _ => .ok ""
  | f + 1, (k, u) :: es, n =>
    match processF f u n true with
    | .out => .out
    | .err => .err
    | .ok s =>
      match printItemsDictF f es n with
      | .out => .out
      | .err => .err
      | .ok rest =>
        let tag := if u.isListTup then k ++ "[]" else k
        .ok ("\n" ++ indent (n + 1) ++ tag ++ " = " ++ s ++ rest)

/-- `Printer.print_collection(c, n)`, fueled: newline, indent, rendered
element, trailing comma, for each element. -/
def printCollItemsF : Nat → List Value → Int → Res String
  | 0, _, _ => .out
  | _ + 1, [], _ => .ok ""
  | f + 1, x :: xs, n =>
    match processF f x (n - 2) false with
    | .out => .out
    | .err => .err
    | .ok s =>
      match printCollItemsF f xs n with
      | .out => .out
      | .err => .err
      | .ok rest => .ok ("\n" ++ indent n ++ s ++ "," ++ rest)

/-- `Printer.print_property(d)`, fueled: `property:` + class name + `=` +
the rendering of `d.value` at indent 0 without forced newline. -/
def printPropertyF : Nat → Value → Res String
  | 0, _ => .out
  | f + 1, v =>
    match v with
    | .vobj c _ st =>
      match lookupStore st "value" with
      | none => .err
      | some u =>
        match processF f u 0 false with
        | .out => .out
        | .err => .err
        | .ok s => .ok ("property:" ++ c.clsName ++ "=" ++ s)
    | _ => .err

end

/-- Sufficient fuel for `processF`. -/
def needProcess (v : Value) : Nat := 4 * rankV v + 4

/-- Sufficient fuel for `complexF`. -/
def needComplex (v : Value) : Nat := 4 * rankV v + 3

/-- Sufficient fuel for `complexKeysF`. -/
def needCKeys (st : List (String × Value)) (kl : List String) : Nat :=
  4 * rankP st + 4 * kl.length + 2

/-- Sufficient fuel for `complexPairsF`. -/
def needCPairs (es : List (String × Value)) : Nat := 4 * rankP es

/-- Sufficient fuel for `complexListF`. -/
def needCList (xs : List Value) : Nat := 4 * rankL xs

/-- Sufficient fuel for `printComplexF`. -/
def needPComplex (v : Value) : Nat := 4 * rankV v + 3

/-- Sufficient fuel for `printItemsObjF`. -/
def needPItems (st : List (String × Value)) (kl : List String) : Nat :=
  4 * rankP st + 4 * kl.length + 2

/-- Sufficient fuel for `printItemsDictF`. -/
def needDItems (es : List (String × Value)) : Nat := 4 * rankP es

/-- Sufficient fuel for `printCollItemsF`. -/
def needColl (xs : List Value) : Nat := 4 * rankL xs

/-- Sufficient fuel for `printPropertyF`. -/
def needPProp (v : Value) : Nat := 4 * rankV v + 3

/-- `Printer.complex(x)` with sufficient fuel. -/
def complexv (v : Value) : Res Bool := complexF (needComplex v) v

/-- `Printer.process(x, n, nl)` with sufficient fuel. -/
def processv (v : Value) (n : Int) (nl : Bool) : Res String :=
  processF (needProcess v) v n nl

/-- The object-items loop of `Printer.complex` with sufficient fuel. -/
def complexKeysv (st : List (String × Value)) (kl : List String) : Res Bool :=
  complexKeysF (needCKeys st kl) st kl

/-- The dict-items loop of `Printer.complex` with sufficient fuel. -/
def complexPairsv (es : List (String × Value)) : Res Bool :=
  complexPairsF (needCPairs es) es

/-- The list-elements loop of `Printer.complex` with sufficient fuel. -/
def complexListv (xs : List Value) : Res Bool :=
  complexListF (needCList xs) xs

/-- `Printer.print_complex` with sufficient fuel. -/
def printComplexv (v : Value) (n : Int) (nl : Bool) : Res String :=
  printComplexF (needPComplex v) v n nl

/-- The object-items loop of `Printer.print_complex` with sufficient fuel. -/
def printItemsObjv (st : List (String × Value)) (kl : List String) (n : Int) : Res String :=
  printItemsObjF (needPItems st kl) st kl n

/-- The dict-items loop of `Printer.print_complex` with sufficient fuel. -/
def printItemsDictv (es : List (String × Value)) (n : Int) : Res String :=
  printItemsDictF (needDItems es) es n

/-- `Printer.print_collection` with sufficient fuel. -/
def printCollv (xs : List Value) (n : Int) : Res String :=
  printCollItemsF (needColl xs) xs n

/-- `Printer.print_property` with sufficient fuel. -/
def printPropertyv (v : Value) : Res String :=
  printPropertyF (needPProp v) v

/-- `Printer.tostr(object)` at its default indent of `-2` (the entry point
used by `Object.__str__`/`__unicode__`). -/
def printerTostr (v : Value) : Res String := processv v (-2) false

mutual

/-- Well-formedness of an embedded value, fueled: every name in a suds
object's `__keylist__` resolves in its storage, a `Property`-classed object
has its reserved `value` entry in storage, and all stored/contained values
are recursively well-formed.  Every object reachable through the
constructors and `setAttr` is well-formed. -/
def valWFF : Nat → Value → Bool
  | 0, _ => false
  | f + 1, v =>
    match v with
    | .vobj c kl st =>
        (match c with
         | .prop _ => (lookupStore st "value").isSome
         | _ => true)
        && kl.all (fun k => (lookupStore st k).isSome)
        && pairsWFF f st
    | .vdict es => pairsWFF f es
    | .vlist xs => listWFF f xs
    | _ => true

/-- Well-formedness of the values of an association list, fueled. -/
def pairsWFF : Nat → List (String × Value) → Bool
  | 0, _ => false
  | _ + 1, [] => true
  | f + 1, (_, v) :: es => valWFF f v && pairsWFF f es

/-- Well-formedness of the elements of a list, fueled. -/
def listWFF : Nat → List Value → Bool
  | 0, _ => false
  | _ + 1, [] => true
  | f + 1, x :: xs => valWFF f x && listWFF f xs

end

/-- Well-formedness with sufficient fuel. -/
def valWF (v : Value) : Bool := valWFF (rankV v) v

/-- Well-formedness of association-list values with sufficient fuel. -/
def pairsWF (es : List (String × Value)) : Bool := pairsWFF (rankP es) es

/-- Well-formedness of list elements with sufficient fuel. -/
def listWF (xs : List Value) : Bool := listWFF (rankL xs) xs

/-- The `phone` record of the spec's example, built as
`Factory.object("phone")` followed by the three field assignments in source
order. -/
def phoneExample : Value :=
  setFields (subNew "phone")
    [("npa", .vint 410), ("nxx", .vint 555), ("number", .vint 5138)]

/-- The scalar box of the spec's example: `Factory.property("length", 5)`. -/
def lengthBox : Value := propertyNew "length" (.vint 5)

/-- A scalar box wrapping a complex (two-element) list:
`Factory.property("foo", [1, 2])`. -/
def fooBox : Value := propertyNew "foo" (.vlist [.vint 1, .vint 2])

/-- A record with a single non-complex field `x = 5`. -/
def oneFieldRec : Value := setFields objectNew [("x", .vint 5)]

/-- Statement bundle for fuel stability: any two sufficient fuels give the
same result, and that result is not fuel-exhaustion. -/
def StabAll (m : Nat) : Prop :=
  (∀ f g v, needComplex v ≤ f → needComplex v ≤ g → f ≤ m → g ≤ m →
      complexF f v = complexF g v ∧ complexF f v ≠ .out)
  ∧ (∀ f g st kl, needCKeys st kl ≤ f → needCKeys st kl ≤ g → f ≤ m → g ≤ m →
      complexKeysF f st kl = complexKeysF g st kl ∧ complexKeysF f st kl ≠ .out)
  ∧ (∀ f g es, needCPairs es ≤ f → needCPairs es ≤ g → f ≤ m → g ≤ m →
      complexPairsF f es = complexPairsF g es ∧ complexPairsF f es ≠ .out)
  ∧ (∀ f g xs, needCList xs ≤ f → needCList xs ≤ g → f ≤ m → g ≤ m →
      complexListF f xs = complexListF g xs ∧ complexListF f xs ≠ .out)
  ∧ (∀ f g v n nl, needProcess v ≤ f → needProcess v ≤ g → f ≤ m → g ≤ m →
      processF f v n nl = processF g v n nl ∧ processF f v n nl ≠ .out)
  ∧ (∀ f g v n nl, needPComplex v ≤ f → needPComplex v ≤ g → f ≤ m → g ≤ m →
      printComplexF f v n nl = printComplexF g v n nl ∧ printComplexF f v n nl ≠ .out)
  ∧ (∀ f g st kl n, needPItems st kl ≤ f → needPItems st kl ≤ g → f ≤ m → g ≤ m →
      printItemsObjF f st kl n = printItemsObjF g st kl n ∧ printItemsObjF f st kl n ≠ .out)
  ∧ (∀ f g es n, needDItems es ≤ f → needDItems es ≤ g → f ≤ m → g ≤ m →
      printItemsDictF f es n = printItemsDictF g es n ∧ printItemsDictF f es n ≠ .out)
  ∧ (∀ f g xs n, needColl xs ≤ f → needColl xs ≤ g → f ≤ m → g ≤ m →
      printCollItemsF f xs n = printCollItemsF g xs n ∧ printCollItemsF f xs n ≠ .out)
  ∧ (∀ f g v, needPProp v ≤ f → needPProp v ≤ g → f ≤ m → g ≤ m →
      printPropertyF f v = printPropertyF g v ∧ printPropertyF f v ≠ .out)

/-- Statement bundle for fuel stability of the well-formedness predicates. -/
def StabWF (m : Nat) : Prop :=
  (∀ f g v, rankV v ≤ f → rankV v ≤ g → f ≤ m → g ≤ m → valWFF f v = valWFF g v)
  ∧ (∀ f g es, rankP es ≤ f → rankP es ≤ g → f ≤ m → g ≤ m → pairsWFF f es = pairsWFF g es)
  ∧ (∀ f g xs, rankL xs ≤ f → rankL xs ≤ g → f ≤ m → g ≤ m → listWFF f xs = listWFF g xs)

/-- Statement bundle for totality of the printer on well-formed values:
no rendering step raises `MissingFieldError`. -/
def TotalAll (m : Nat) : Prop :=
  (∀ v, rankV v ≤ m → valWF v = true → ∃ b, complexv v = .ok b)
  ∧ (∀ st kl, rankP st + kl.length ≤ m → (∀ k ∈ kl, (lookupStore st k).isSome) →
      pairsWF st = true → ∃ b, complexKeysv st kl = .ok b)
  ∧ (∀ es, rankP es ≤ m → pairsWF es = true → ∃ b, complexPairsv es = .ok b)
  ∧ (∀ xs, rankL xs ≤ m → listWF xs = true → ∃ b, complexListv xs = .ok b)
  ∧ (∀ v n nl, rankV v ≤ m → valWF v = true → ∃ s, processv v n nl = .ok s)
  ∧ (∀ v n nl, rankV v ≤ m → valWF v = true → (Value.isObject v || Value.isDict v) = true →
      ∃ s, printComplexv v n nl = .ok s)
  ∧ (∀ st kl n, rankP st + kl.length ≤ m → (∀ k ∈ kl, (lookupStore st k).isSome) →
      pairsWF st = true → ∃ s, printItemsObjv st kl n = .ok s)
  ∧ (∀ es n, rankP es ≤ m → pairsWF es = true → ∃ s, printItemsDictv es n = .ok s)
  ∧ (∀ xs n, rankL xs ≤ m → listWF xs = true → ∃ s, printCollv xs n = .ok s)
  ∧ (∀ v, rankV v ≤ m → valWF v = true → Value.isPropertyInst v = true →
      ∃ s, printPropertyv v = .ok s)

/-- Every value has positive rank. -/
theorem rankV_pos (v : Value) : 1 ≤ rankV v := by
  cases v <;> simp [rankV] <;> omega

/-- Every association list has positive rank. -/
theorem rankP_pos (es : List (String × Value)) : 1 ≤ rankP es := by
  cases es with
  | nil => simp [rankP]
  | cons p es => obtain ⟨k, v⟩ := p; simp [rankP]; omega

/-- Every list has positive rank. -/
theorem rankL_pos (xs : List Value) : 1 ≤ rankL xs := by
  cases xs with
  | nil => simp [rankL]
  | cons x xs => simp [rankL]; omega

/-- A successful store lookup returns a value of smaller rank. -/
theorem rankV_lookup {st : List (String × Value)} {k : String} {u : Value}
    (h : lookupStore st k = some u) : rankV u < rankP st := by
  induction st with
  | nil => simp [lookupStore] at h
  | cons p rest ih =>
    obtain ⟨a, b⟩ := p
    simp only [lookupStore] at h
    split at h
    · cases h
      simp [rankP]
      omega
    · have := ih h
      simp [rankP]
      omega

theorem stabAll : ∀ m : Nat, StabAll m := by
  intro m
  induction m with
  | zero =>
    refine ⟨?_, ?_, ?_, ?_, ?_, ?_, ?_, ?_, ?_, ?_⟩
    · intro f g v h1 h2 h3 h4
      exfalso; have := rankV_pos v; simp only [needComplex] at h1; omega
    · intro f g st kl h1 h2 h3 h4
      exfalso; have := rankP_pos st; simp only [needCKeys] at h1; omega
    · intro f g es h1 h2 h3 h4
      exfalso; have := rankP_pos es; simp only [needCPairs] at h1; omega
    · intro f g xs h1 h2 h3 h4
      exfalso; have := rankL_pos xs; simp only [needCList] at h1; omega
    · intro f g v n nl h1 h2 h3 h4
      exfalso; have := rankV_pos v; simp only [needProcess] at h1; omega
    · intro f g v n nl h1 h2 h3 h4
      exfalso; have := rankV_pos v; simp only [needPComplex] at h1; omega
    · intro f g st kl n h1 h2 h3 h4
      exfalso; have := rankP_pos st; simp only [needPItems] at h1; omega
    · intro f g es n h1 h2 h3 h4
      exfalso; have := rankP_pos es; simp only [needDItems] at h1; omega
    · intro f g xs n h1 h2 h3 h4
      exfalso; have := rankL_pos xs; simp only [needColl] at h1; omega
    · intro f g v h1 h2 h3 h4
      exfalso; have := rankV_pos v; simp only [needPProp] at h1; omega
  | succ m IH =>
    obtain ⟨ihC, ihCK, ihCP, ihCL, ihP, ihPC, ihoi, ihID, ihCo, ihPP⟩ := IH
    refine ⟨?_, ?_, ?_, ?_, ?_, ?_, ?_, ?_, ?_, ?_⟩
    -- complexF
    · intro f g v h1 h2 h3 h4
      have hv := rankV_pos v
      simp only [needComplex] at h1 h2
      obtain ⟨f', rfl⟩ : ∃ f', f = f' + 1 := ⟨f - 1, by omega⟩
      obtain ⟨g', rfl⟩ : ∃ g', g = g' + 1 := ⟨g - 1, by omega⟩
      cases v with
      | vnone => simp [complexF]
      | vint k => simp [complexF]
      | vstr s => simp [complexF]
      | vlist xs =>
        simp only [complexF]
        simp only [rankV] at h1 h2
        by_cases hl : xs.length > 1
        · simp [hl]
        · simp only [hl, if_false]
          exact ihCL f' g' xs (by simp [needCList]; omega) (by simp [needCList]; omega)
            (by omega) (by omega)
      | vdict es =>
        simp only [complexF]
        simp only [rankV] at h1 h2
        by_cases hl : es.length > 1
        · simp [hl]
        · simp only [hl, if_false]
          exact ihCP f' g' es (by simp [needCPairs]; omega) (by simp [needCPairs]; omega)
            (by omega) (by omega)
      | vobj c kl st =>
        simp only [complexF]
        simp only [rankV] at h1 h2
        have hst := rankP_pos st
        by_cases hl : kl.length > 1
        · simp [hl]
        · simp only [hl, if_false]
          exact ihCK f' g' st kl (by simp [needCKeys]; omega) (by simp [needCKeys]; omega)
            (by omega) (by omega)
    -- complexKeysF
    · intro f g st kl h1 h2 h3 h4
      have hst := rankP_pos st
      simp only [needCKeys] at h1 h2
      obtain ⟨f', rfl⟩ : ∃ f', f = f' + 1 := ⟨f - 1, by omega⟩
      obtain ⟨g', rfl⟩ : ∃ g', g = g' + 1 := ⟨g - 1, by omega⟩
      cases kl with
      | nil => simp [complexKeysF]
      | cons k ks =>
        simp only [complexKeysF]
        simp only [List.length_cons] at h1 h2
        cases hlk : lookupStore st k with
        | none => simp
        | some u =>
          dsimp only
          have hu := rankV_lookup hlk
          have hC := ihC f' g' u (by simp [needComplex]; omega) (by simp [needComplex]; omega)
            (by omega) (by omega)
          rw [hC.1]
          cases hcg : complexF g' u with
          | out => exact absurd hcg (hC.1 ▸ hC.2)
          | err => simp
          | ok b =>
            cases b with
            | true => simp
            | false =>
              exact ihCK f' g' st ks (by simp [needCKeys]; omega) (by simp [needCKeys]; omega)
                (by omega) (by omega)
    -- complexPairsF
    · intro f g es h1 h2 h3 h4
      have hes := rankP_pos es
      simp only [needCPairs] at h1 h2
      obtain ⟨f', rfl⟩ : ∃ f', f = f' + 1 := ⟨f - 1, by omega⟩
      obtain ⟨g', rfl⟩ : ∃ g', g = g' + 1 := ⟨g - 1, by omega⟩
      cases es with
      | nil => simp [complexPairsF]
      | cons p es =>
        obtain ⟨k, u⟩ := p
        simp only [complexPairsF]
        simp only [rankP] at h1 h2
        have hpe := rankP_pos es
        have hC := ihC f' g' u (by simp [needComplex]; omega) (by simp [needComplex]; omega)
          (by omega) (by omega)
        rw [hC.1]
        cases hcg : complexF g' u with
        | out => exact absurd hcg (hC.1 ▸ hC.2)
        | err => simp
        | ok b =>
          cases b with
          | true => simp
          | false =>
            exact ihCP f' g' es (by simp [needCPairs]; omega) (by simp [needCPairs]; omega)
              (by omega) (by omega)
    -- complexListF
    · intro f g xs h1 h2 h3 h4
      have hxs := rankL_pos xs
      simp only [needCList] at h1 h2
      obtain ⟨f', rfl⟩ : ∃ f', f = f' + 1 := ⟨f - 1, by omega⟩
      obtain ⟨g', rfl⟩ : ∃ g', g = g' + 1 := ⟨g - 1, by omega⟩
      cases xs with
      | nil => simp [complexListF]
      | cons x xs =>
        simp only [complexListF]
        simp only [rankL] at h1 h2
        have hxs2 := rankL_pos xs
        have hC := ihC f' g' x (by simp [needComplex]; omega) (by simp [needComplex]; omega)
          (by omega) (by omega)
        rw [hC.1]
        cases hcg : complexF g' x with
        | out => exact absurd hcg (hC.1 ▸ hC.2)
        | err => simp
        | ok b =>
          cases b with
          | true => simp
          | false =>
            exact ihCL f' g' xs (by simp [needCList]; omega) (by simp [needCList]; omega)
              (by omega) (by omega)
    -- processF
    · intro f g v n nl h1 h2 h3 h4
      have hv := rankV_pos v
      simp only [needProcess] at h1 h2
      obtain ⟨f', rfl⟩ : ∃ f', f = f' + 1 := ⟨f - 1, by omega⟩
      obtain ⟨g', rfl⟩ : ∃ g', g = g' + 1 := ⟨g - 1, by omega⟩
      have hC := ihC f' g' v (by simp [needComplex]; omega) (by simp [needComplex]; omega)
        (by omega) (by omega)
      cases v with
      | vnone => simp [processF]
      | vint k =>
        simp only [processF]
        rw [hC.1]
        cases hcg : complexF g' (.vint k) with
        | out => exact absurd hcg (hC.1 ▸ hC.2)
        | err => simp
        | ok b => cases b <;> simp [Value.isObject, Value.isDict, Value.isListTup,
            Value.isPropertyInst, asdictVal, processTail]
      | vstr s =>
        simp only [processF]
        rw [hC.1]
        cases hcg : complexF g' (.vstr s) with
        | out => exact absurd hcg (hC.1 ▸ hC.2)
        | err => simp
        | ok b => cases b <;> simp [Value.isObject, Value.isDict, Value.isListTup,
            Value.isPropertyInst, asdictVal, processTail]
      | vlist xs =>
        simp only [processF]
        simp only [rankV] at h1 h2
        rw [hC.1]
        cases hcg : complexF g' (.vlist xs) with
        | out => exact absurd hcg (hC.1 ▸ hC.2)
        | err => simp
        | ok b =>
          cases b with
          | true =>
            simp only [Value.isObject, Value.isDict, Value.isListTup, Bool.true_and,
              Bool.false_or, Bool.or_self, if_true, if_false]
            exact ihCo f' g' xs (n + 2) (by simp [needColl]; omega) (by simp [needColl]; omega)
              (by omega) (by omega)
          | false =>
            simp [Value.isObject, Value.isDict, Value.isListTup, Value.isPropertyInst, asdictVal, processTail]
            split <;> simp
      | vdict es =>
        simp only [processF]
        simp only [rankV] at h1 h2
        rw [hC.1]
        cases hcg : complexF g' (.vdict es) with
        | out => exact absurd hcg (hC.1 ▸ hC.2)
        | err => simp
        | ok b =>
          cases b with
          | true =>
            simp only [Value.isObject, Value.isDict, Value.isListTup, Bool.true_and,
              Bool.or_true, Bool.false_or, if_true]
            exact ihPC f' g' (.vdict es) (n + 2) nl (by simp [needPComplex, rankV]; omega)
              (by simp [needPComplex, rankV]; omega) (by omega) (by omega)
          | false =>
            simp [Value.isObject, Value.isDict, Value.isListTup, Value.isPropertyInst, asdictVal, processTail]
            split <;> simp
      | vobj c kl st =>
        simp only [processF]
        simp only [rankV] at h1 h2
        rw [hC.1]
        cases hcg : complexF g' (.vobj c kl st) with
        | out => exact absurd hcg (hC.1 ▸ hC.2)
        | err => simp
        | ok b =>
          cases b with
          | true =>
            simp only [Value.isObject, Value.isDict, Value.isListTup, Bool.true_and,
              Bool.or_false, Bool.true_or, if_true]
            exact ihPC f' g' (.vobj c kl st) (n + 2) nl (by simp [needPComplex, rankV]; omega)
              (by simp [needPComplex, rankV]; omega) (by omega) (by omega)
          | false =>
            simp only [Value.isObject, Value.isDict, Value.isListTup, Bool.false_and,
              Bool.true_and, Bool.or_false, Bool.true_or, if_false, if_true]
            cases c with
            | prop nm =>
              simp only [Value.isPropertyInst, if_true]
              exact ihPP f' g' (.vobj (.prop nm) kl st) (by simp [needPProp, rankV]; omega)
                (by simp [needPProp, rankV]; omega) (by omega) (by omega)
            | base =>
              simp [Value.isPropertyInst, asdictVal, processTail]
              cases getattrs st kl <;> simp <;> split <;> simp
            | metadata =>
              simp [Value.isPropertyInst, asdictVal, processTail]
              cases getattrs st kl <;> simp <;> split <;> simp
            | sub nm =>
              simp [Value.isPropertyInst, asdictVal, processTail]
              cases getattrs st kl <;> simp <;> split <;> simp
    -- printComplexF
    · intro f g v n nl h1 h2 h3 h4
      have hv := rankV_pos v
      simp only [needPComplex] at h1 h2
      obtain ⟨f', rfl⟩ : ∃ f', f = f' + 1 := ⟨f - 1, by omega⟩
      obtain ⟨g', rfl⟩ : ∃ g', g = g' + 1 := ⟨g - 1, by omega⟩
      cases v with
      | vnone => simp [printComplexF]
      | vint k => simp [printComplexF]
      | vstr s => simp [printComplexF]
      | vlist xs => simp [printComplexF]
      | vdict es =>
        simp only [printComplexF]
        simp only [rankV] at h1 h2
        have hID := ihID f' g' es n (by simp [needDItems]; omega) (by simp [needDItems]; omega)
          (by omega) (by omega)
        rw [hID.1]
        cases hcg : printItemsDictF g' es n with
        | out => exact absurd hcg (hID.1 ▸ hID.2)
        | err => simp
        | ok body => simp
      | vobj c kl st =>
        simp only [printComplexF]
        simp only [rankV] at h1 h2
        have hoi := ihoi f' g' st kl n (by simp [needPItems]; omega) (by simp [needPItems]; omega)
          (by omega) (by omega)
        rw [hoi.1]
        cases hcg : printItemsObjF g' st kl n with
        | out => exact absurd hcg (hoi.1 ▸ hoi.2)
        | err => simp
        | ok body => simp
    -- printItemsObjF
    · intro f g st kl n h1 h2 h3 h4
      have hst := rankP_pos st
      simp only [needPItems] at h1 h2
      obtain ⟨f', rfl⟩ : ∃ f', f = f' + 1 := ⟨f - 1, by omega⟩
      obtain ⟨g', rfl⟩ : ∃ g', g = g' + 1 := ⟨g - 1, by omega⟩
      cases kl with
      | nil => simp [printItemsObjF]
      | cons k ks =>
        simp only [printItemsObjF]
        simp only [List.length_cons] at h1 h2
        cases hlk : lookupStore st k with
        | none => simp
        | some u =>
          dsimp only
          have hu := rankV_lookup hlk
          have hP := ihP f' g' u n true (by simp [needProcess]; omega)
            (by simp [needProcess]; omega) (by omega) (by omega)
          rw [hP.1]
          cases hpg : processF g' u n true with
          | out => exact absurd hpg (hP.1 ▸ hP.2)
          | err => simp
          | ok s =>
            have hoi := ihoi f' g' st ks n (by simp [needPItems]; omega)
              (by simp [needPItems]; omega) (by omega) (by omega)
            rw [hoi.1]
            cases hig : printItemsObjF g' st ks n with
            | out => exact absurd hig (hoi.1 ▸ hoi.2)
            | err => simp
            | ok rest => simp
    -- printItemsDictF
    · intro f g es n h1 h2 h3 h4
      have hes := rankP_pos es
      simp only [needDItems] at h1 h2
      obtain ⟨f', rfl⟩ : ∃ f', f = f' + 1 := ⟨f - 1, by omega⟩
      obtain ⟨g', rfl⟩ : ∃ g', g = g' + 1 := ⟨g - 1, by omega⟩
      cases es with
      | nil => simp [printItemsDictF]
      | cons p es =>
        obtain ⟨k, u⟩ := p
        simp only [printItemsDictF]
        simp only [rankP] at h1 h2
        have hpe := rankP_pos es
        have hP := ihP f' g' u n true (by simp [needProcess]; omega)
          (by simp [needProcess]; omega) (by omega) (by omega)
        rw [hP.1]
        cases hpg : processF g' u n true with
        | out => exact absurd hpg (hP.1 ▸ hP.2)
        | err => simp
        | ok s =>
          have hID := ihID f' g' es n (by simp [needDItems]; omega)
            (by simp [needDItems]; omega) (by omega) (by omega)
          rw [hID.1]
          cases hig : printItemsDictF g' es n with
          | out => exact absurd hig (hID.1 ▸ hID.2)
          | err => simp
          | ok rest => simp
    -- printCollItemsF
    · intro f g xs n h1 h2 h3 h4
      have hxs := rankL_pos xs
      simp only [needColl] at h1 h2
      obtain ⟨f', rfl⟩ : ∃ f', f = f' + 1 := ⟨f - 1, by omega⟩
      obtain ⟨g', rfl⟩ : ∃ g', g = g' + 1 := ⟨g - 1, by omega⟩
      cases xs with
      | nil => simp [printCollItemsF]
      | cons x xs =>
        simp only [printCollItemsF]
        simp only [rankL] at h1 h2
        have hxs2 := rankL_pos xs
        have hP := ihP f' g' x (n - 2) false (by simp [needProcess]; omega)
          (by simp [needProcess]; omega) (by omega) (by omega)
        rw [hP.1]
        cases hpg : processF g' x (n - 2) false with
        | out => exact absurd hpg (hP.1 ▸ hP.2)
        | err => simp
        | ok s =>
          have hCo := ihCo f' g' xs n (by simp [needColl]; omega)
            (by simp [needColl]; omega) (by omega) (by omega)
          rw [hCo.1]
          cases hig : printCollItemsF g' xs n with
          | out => exact absurd hig (hCo.1 ▸ hCo.2)
          | err => simp
          | ok rest => simp
    -- printPropertyF
    · intro f g v h1 h2 h3 h4
      have hv := rankV_pos v
      simp only [needPProp] at h1 h2
      obtain ⟨f', rfl⟩ : ∃ f', f = f' + 1 := ⟨f - 1, by omega⟩
      obtain ⟨g', rfl⟩ : ∃ g', g = g' + 1 := ⟨g - 1, by omega⟩
      cases v with
      | vnone => simp [printPropertyF]
      | vint k => simp [printPropertyF]
      | vstr s => simp [printPropertyF]
      | vlist xs => simp [printPropertyF]
      | vdict es => simp [printPropertyF]
      | vobj c kl st =>
        simp only [printPropertyF]
        simp only [rankV] at h1 h2
        cases hlk : lookupStore st "value" with
        | none => simp
        | some u =>
          dsimp only
          have hu := rankV_lookup hlk
          have hP := ihP f' g' u 0 false (by simp [needProcess]; omega)
            (by simp [needProcess]; omega) (by omega) (by omega)
          rw [hP.1]
          cases hpg : processF g' u 0 false with
          | out => exact absurd hpg (hP.1 ▸ hP.2)
          | err => simp
          | ok s => simp

/-- Any sufficient fuel computes `complexv`. -/
theorem complexF_stable {v : Value} {f : Nat} (h : needComplex v ≤ f) :
    complexF f v = complexv v :=
  ((stabAll (max f (needComplex v))).1 f (needComplex v) v h le_rfl
    (le_max_left _ _) (le_max_right _ _)).1

/-- `complexv` never exhausts its fuel. -/
theorem complexv_ne_out (v : Value) : complexv v ≠ .out :=
  ((stabAll (needComplex v)).1 (needComplex v) (needComplex v) v le_rfl le_rfl
    le_rfl le_rfl).2

/-- Any sufficient fuel computes `complexKeysv`. -/
theorem complexKeysF_stable {st : List (String × Value)} {kl : List String} {f : Nat}
    (h : needCKeys st kl ≤ f) : complexKeysF f st kl = complexKeysv st kl :=
  ((stabAll (max f (needCKeys st kl))).2.1 f (needCKeys st kl) st kl h le_rfl
    (le_max_left _ _) (le_max_right _ _)).1

/-- `complexKeysv` never exhausts its fuel. -/
theorem complexKeysv_ne_out (st : List (String × Value)) (kl : List String) :
    complexKeysv st kl ≠ .out :=
  ((stabAll (needCKeys st kl)).2.1 (needCKeys st kl) (needCKeys st kl) st kl le_rfl le_rfl
    le_rfl le_rfl).2

/-- Any sufficient fuel computes `complexPairsv`. -/
theorem complexPairsF_stable {es : List (String × Value)} {f : Nat}
    (h : needCPairs es ≤ f) : complexPairsF f es = complexPairsv es :=
  ((stabAll (max f (needCPairs es))).2.2.1 f (needCPairs es) es h le_rfl
    (le_max_left _ _) (le_max_right _ _)).1

/-- `complexPairsv` never exhausts its fuel. -/
theorem complexPairsv_ne_out (es : List (String × Value)) : complexPairsv es ≠ .out :=
  ((stabAll (needCPairs es)).2.2.1 (needCPairs es) (needCPairs es) es le_rfl le_rfl
    le_rfl le_rfl).2

/-- Any sufficient fuel computes `complexListv`. -/
theorem complexListF_stable {xs : List Value} {f : Nat}
    (h : needCList xs ≤ f) : complexListF f xs = complexListv xs :=
  ((stabAll (max f (needCList xs))).2.2.2.1 f (needCList xs) xs h le_rfl
    (le_max_left _ _) (le_max_right _ _)).1

/-- `complexListv` never exhausts its fuel. -/
theorem complexListv_ne_out (xs : List Value) : complexListv xs ≠ .out :=
  ((stabAll (needCList xs)).2.2.2.1 (needCList xs) (needCList xs) xs le_rfl le_rfl
    le_rfl le_rfl).2

/-- Any sufficient fuel computes `processv`. -/
theorem processF_stable {v : Value} {f : Nat} {n : Int} {nl : Bool}
    (h : needProcess v ≤ f) : processF f v n nl = processv v n nl :=
  ((stabAll (max f (needProcess v))).2.2.2.2.1 f (needProcess v) v n nl h le_rfl
    (le_max_left _ _) (le_max_right _ _)).1

/-- `processv` never exhausts its fuel. -/
theorem processv_ne_out (v : Value) (n : Int) (nl : Bool) : processv v n nl ≠ .out :=
  ((stabAll (needProcess v)).2.2.2.2.1 (needProcess v) (needProcess v) v n nl le_rfl le_rfl
    le_rfl le_rfl).2

/-- Any sufficient fuel computes `printComplexv`. -/
theorem printComplexF_stable {v : Value} {f : Nat} {n : Int} {nl : Bool}
    (h : needPComplex v ≤ f) : printComplexF f v n nl = printComplexv v n nl :=
  ((stabAll (max f (needPComplex v))).2.2.2.2.2.1 f (needPComplex v) v n nl h le_rfl
    (le_max_left _ _) (le_max_right _ _)).1

/-- `printComplexv` never exhausts its fuel. -/
theorem printComplexv_ne_out (v : Value) (n : Int) (nl : Bool) : printComplexv v n nl ≠ .out :=
  ((stabAll (needPComplex v)).2.2.2.2.2.1 (needPComplex v) (needPComplex v) v n nl le_rfl le_rfl
    le_rfl le_rfl).2

/-- Any sufficient fuel computes `printItemsObjv`. -/
theorem printItemsObjF_stable {st : List (String × Value)} {kl : List String} {f : Nat} {n : Int}
    (h : needPItems st kl ≤ f) : printItemsObjF f st kl n = printItemsObjv st kl n :=
  ((stabAll (max f (needPItems st kl))).2.2.2.2.2.2.1 f (needPItems st kl) st kl n h le_rfl
    (le_max_left _ _) (le_max_right _ _)).1

/-- `printItemsObjv` never exhausts its fuel. -/
theorem printItemsObjv_ne_out (st : List (String × Value)) (kl : List String) (n : Int) :
    printItemsObjv st kl n ≠ .out :=
  ((stabAll (needPItems st kl)).2.2.2.2.2.2.1 (needPItems st kl) (needPItems st kl) st kl n
    le_rfl le_rfl le_rfl le_rfl).2

/-- Any sufficient fuel computes `printItemsDictv`. -/
theorem printItemsDictF_stable {es : List (String × Value)} {f : Nat} {n : Int}
    (h : needDItems es ≤ f) : printItemsDictF f es n = printItemsDictv es n :=
  ((stabAll (max f (needDItems es))).2.2.2.2.2.2.2.1 f (needDItems es) es n h le_rfl
    (le_max_left _ _) (le_max_right _ _)).1

/-- `printItemsDictv` never exhausts its fuel. -/
theorem printItemsDictv_ne_out (es : List (String × Value)) (n : Int) :
    printItemsDictv es n ≠ .out :=
  ((stabAll (needDItems es)).2.2.2.2.2.2.2.1 (needDItems es) (needDItems es) es n
    le_rfl le_rfl le_rfl le_rfl).2

/-- Any sufficient fuel computes `printCollv`. -/
theorem printCollItemsF_stable {xs : List Value} {f : Nat} {n : Int}
    (h : needColl xs ≤ f) : printCollItemsF f xs n = printCollv xs n :=
  ((stabAll (max f (needColl xs))).2.2.2.2.2.2.2.2.1 f (needColl xs) xs n h le_rfl
    (le_max_left _ _) (le_max_right _ _)).1

/-- `printCollv` never exhausts its fuel. -/
theorem printCollv_ne_out (xs : List Value) (n : Int) : printCollv xs n ≠ .out :=
  ((stabAll (needColl xs)).2.2.2.2.2.2.2.2.1 (needColl xs) (needColl xs) xs n
    le_rfl le_rfl le_rfl le_rfl).2

/-- Any sufficient fuel computes `printPropertyv`. -/
theorem printPropertyF_stable {v : Value} {f : Nat}
    (h : needPProp v ≤ f) : printPropertyF f v = printPropertyv v :=
  ((stabAll (max f (needPProp v))).2.2.2.2.2.2.2.2.2 f (needPProp v) v h le_rfl
    (le_max_left _ _) (le_max_right _ _)).1

/-- `printPropertyv` never exhausts its fuel. -/
theorem printPropertyv_ne_out (v : Value) : printPropertyv v ≠ .out :=
  ((stabAll (needPProp v)).2.2.2.2.2.2.2.2.2 (needPProp v) (needPProp v) v
    le_rfl le_rfl le_rfl le_rfl).2

/-- `complex(None)` is false. -/
theorem complexv_none : complexv .vnone = .ok false := rfl

/-- `complex` of an integer is false. -/
theorem complexv_int (k : Int) : complexv (.vint k) = .ok false := rfl

/-- `complex` of a string is false. -/
theorem complexv_str (s : String) : complexv (.vstr s) = .ok false := rfl

/-- Unfolding of `complexv` on a suds object: complex when more than one
visible field, otherwise defer to the item loop. -/
theorem complexv_obj (c : Cls) (kl : List String) (st : List (String × Value)) :
    complexv (.vobj c kl st) = if 1 < kl.length then .ok true else complexKeysv st kl := by
  rw [show complexv (.vobj c kl st)
      = complexF (4 * rankV (.vobj c kl st) + 2 + 1) (.vobj c kl st) from rfl]
  simp only [complexF]
  by_cases h : 1 < kl.length
  · simp [h]
  · simp only [h, if_false]
    exact complexKeysF_stable (by simp [needCKeys, rankV]; omega)

/-- Unfolding of `complexv` on a dict. -/
theorem complexv_dict (es : List (String × Value)) :
    complexv (.vdict es) = if 1 < es.length then .ok true else complexPairsv es := by
  rw [show complexv (.vdict es) = complexF (4 * rankV (.vdict es) + 2 + 1) (.vdict es) from rfl]
  simp only [complexF]
  by_cases h : 1 < es.length
  · simp [h]
  · simp only [h, if_false]
    exact complexPairsF_stable (by simp [needCPairs, rankV]; omega)

/-- Unfolding of `complexv` on a list. -/
theorem complexv_list (xs : List Value) :
    complexv (.vlist xs) = if 1 < xs.length then .ok true else complexListv xs := by
  rw [show complexv (.vlist xs) = complexF (4 * rankV (.vlist xs) + 2 + 1) (.vlist xs) from rfl]
  simp only [complexF]
  by_cases h : 1 < xs.length
  · simp [h]
  · simp only [h, if_false]
    exact complexListF_stable (by simp [needCList, rankV]; omega)

/-- The complex item loop on an empty key list returns false. -/
theorem complexKeysv_nil (st : List (String × Value)) : complexKeysv st [] = .ok false := by
  rw [show complexKeysv st [] = complexKeysF (4 * rankP st + 4 * ([] : List String).length + 1 + 1) st [] from rfl]
  simp only [complexKeysF]

/-- Unfolding of the complex item loop on a non-empty key list. -/
theorem complexKeysv_cons (st : List (String × Value)) (k : String) (ks : List String) :
    complexKeysv st (k :: ks) =
      match lookupStore st k with
      | none => .err
      | some u =>
        match complexv u with
        | .out => .out
        | .err => .err
        | .ok true => .ok true
        | .ok false => complexKeysv st ks := by
  have hf : needCKeys st (k :: ks) = 4 * rankP st + 4 * ks.length + 5 + 1 := by
    simp [needCKeys]; omega
  rw [show complexKeysv st (k :: ks) = complexKeysF (needCKeys st (k :: ks)) st (k :: ks) from rfl,
    hf]
  simp only [complexKeysF]
  cases hlk : lookupStore st k with
  | none => rfl
  | some u =>
    dsimp only
    have hu := rankV_lookup hlk
    rw [complexF_stable (show needComplex u ≤ 4 * rankP st + 4 * ks.length + 5 by
      simp [needComplex]; omega)]
    cases complexv u with
    | out => rfl
    | err => rfl
    | ok b =>
      cases b with
      | true => rfl
      | false =>
        exact complexKeysF_stable (by simp only [needCKeys]; omega)

/-- Unfolding of the complex pair loop. -/
theorem complexPairsv_nil : complexPairsv [] = .ok false := rfl

/-- Unfolding of the complex pair loop on a non-empty dict. -/
theorem complexPairsv_cons (k : String) (u : Value) (es : List (String × Value)) :
    complexPairsv ((k, u) :: es) =
      match complexv u with
      | .out => .out
      | .err => .err
      | .ok true => .ok true
      | .ok false => complexPairsv es := by
  have hpe := rankP_pos es
  have hf : needCPairs ((k, u) :: es) = 4 * rankV u + 4 * rankP es + 3 + 1 := by
    simp [needCPairs, rankP]; omega
  rw [show complexPairsv ((k, u) :: es) = complexPairsF (needCPairs ((k, u) :: es)) ((k, u) :: es) from rfl,
    hf]
  simp only [complexPairsF]
  rw [complexF_stable (show needComplex u ≤ 4 * rankV u + 4 * rankP es + 3 by
    simp only [needComplex]; omega)]
  cases complexv u with
  | out => rfl
  | err => rfl
  | ok b =>
    cases b with
    | true => rfl
    | false =>
      exact complexPairsF_stable (by simp only [needCPairs]; omega)

/-- Unfolding of the complex element loop. -/
theorem complexListv_nil : complexListv [] = .ok false := rfl

/-- Unfolding of the complex element loop on a non-empty list. -/
theorem complexListv_cons (x : Value) (xs : List Value) :
    complexListv (x :: xs) =
      match complexv x with
      | .out => .out
      | .err => .err
      | .ok true => .ok true
      | .ok false => complexListv xs := by
  have hxs := rankL_pos xs
  have hf : needCList (x :: xs) = 4 * rankV x + 4 * rankL xs + 3 + 1 := by
    simp [needCList, rankL]; omega
  rw [show complexListv (x :: xs) = complexListF (needCList (x :: xs)) (x :: xs) from rfl, hf]
  simp only [complexListF]
  rw [complexF_stable (show needComplex x ≤ 4 * rankV x + 4 * rankL xs + 3 by
    simp only [needComplex]; omega)]
  cases complexv x with
  | out => rfl
  | err => rfl
  | ok b =>
    cases b with
    | true => rfl
    | false =>
      exact complexListF_stable (by simp only [needCList]; omega)

/-- `process(None, n, nl)` is the literal `None`. -/
theorem processv_none (n : Int) (nl : Bool) : processv .vnone n nl = .ok "None" := rfl

/-- `process` of an integer is its parenthesised string form. -/
theorem processv_int (k : Int) (n : Int) (nl : Bool) :
    processv (.vint k) n nl = .ok ("(" ++ sudsTostr (.vint k) ++ ")") := rfl

/-- `process` of a string is its parenthesised string form. -/
theorem processv_str (s : String) (n : Int) (nl : Bool) :
    processv (.vstr s) n nl = .ok ("(" ++ sudsTostr (.vstr s) ++ ")") := rfl

/-- A complex suds object or dict is rendered by `print_complex` at
indent `n + 2`. -/
theorem processv_complex_obj {v : Value} (n : Int) (nl : Bool)
    (hc : complexv v = .ok true) (ho : v.isObject || v.isDict) :
    processv v n nl = printComplexv v (n + 2) nl := by
  cases v with
  | vnone => exact absurd hc (by rw [complexv_none]; simp)
  | vint k => exact absurd hc (by rw [complexv_int]; simp)
  | vstr s => exact absurd hc (by rw [complexv_str]; simp)
  | vlist xs => simp [Value.isObject, Value.isDict] at ho
  | vdict es =>
    rw [show processv (.vdict es) n nl
        = processF (needComplex (.vdict es) + 1) (.vdict es) n nl from rfl]
    simp only [processF]
    rw [complexF_stable le_rfl, hc]
    simp only [Value.isObject, Value.isDict, Bool.true_and, Bool.or_true, if_true]
    exact printComplexF_stable le_rfl
  | vobj c kl st =>
    rw [show processv (.vobj c kl st) n nl
        = processF (needComplex (.vobj c kl st) + 1) (.vobj c kl st) n nl from rfl]
    simp only [processF]
    rw [complexF_stable le_rfl, hc]
    simp only [Value.isObject, Value.isDict, Bool.true_and, Bool.true_or, if_true]
    exact printComplexF_stable le_rfl

/-- A complex list is rendered by `print_collection` at indent `n + 2`. -/
theorem processv_complex_list {xs : List Value} (n : Int) (nl : Bool)
    (hc : complexv (.vlist xs) = .ok true) :
    processv (.vlist xs) n nl = printCollv xs (n + 2) := by
  rw [show processv (.vlist xs) n nl
      = processF (needComplex (.vlist xs) + 1) (.vlist xs) n nl from rfl]
  simp only [processF]
  rw [complexF_stable le_rfl, hc]
  simp only [Value.isObject, Value.isDict, Value.isListTup, Bool.true_and, Bool.false_or,
    Bool.or_self, if_false, if_true]
  exact printCollItemsF_stable (by simp only [needColl, needComplex, rankV]; omega)

/-- A non-complex `Property` instance is rendered by `print_property`. -/
theorem processv_prop {nm : String} {kl : List String} {st : List (String × Value)}
    (n : Int) (nl : Bool) (hc : complexv (.vobj (.prop nm) kl st) = .ok false) :
    processv (.vobj (.prop nm) kl st) n nl = printPropertyv (.vobj (.prop nm) kl st) := by
  rw [show processv (.vobj (.prop nm) kl st) n nl
      = processF (needComplex (.vobj (.prop nm) kl st) + 1) (.vobj (.prop nm) kl st) n nl from rfl]
  simp only [processF]
  rw [complexF_stable le_rfl, hc]
  simp only [Value.isObject, Value.isDict, Value.isListTup, Value.isPropertyInst,
    Bool.false_and, if_false, if_true]
  exact printPropertyF_stable le_rfl

/-- A non-complex non-`Property` value falls through to the `asdict`
conversion and the scalar/inline tail. -/
theorem processv_plain {v : Value} (n : Int) (nl : Bool)
    (hc : complexv v = .ok false) (hp : v.isPropertyInst = false) (hn : v ≠ .vnone) :
    processv v n nl =
      match asdictVal v with
      | none => .err
      | some w => processTail w := by
  cases v with
  | vnone => exact absurd rfl hn
  | vint k => rfl
  | vstr s => rfl
  | vlist xs =>
    rw [show processv (.vlist xs) n nl
        = processF (needComplex (.vlist xs) + 1) (.vlist xs) n nl from rfl]
    simp only [processF]
    rw [complexF_stable le_rfl, hc]
    simp only [Value.isObject, Value.isDict, Value.isListTup, Value.isPropertyInst,
      Bool.false_and, Bool.and_false, if_false, Bool.false_eq_true, ite_false]
  | vdict es =>
    rw [show processv (.vdict es) n nl
        = processF (needComplex (.vdict es) + 1) (.vdict es) n nl from rfl]
    simp only [processF]
    rw [complexF_stable le_rfl, hc]
    simp only [Value.isObject, Value.isDict, Value.isListTup, Value.isPropertyInst,
      Bool.false_and, Bool.and_false, if_false, Bool.false_eq_true, ite_false]
  | vobj c kl st =>
    rw [show processv (.vobj c kl st) n nl
        = processF (needComplex (.vobj c kl st) + 1) (.vobj c kl st) n nl from rfl]
    simp only [processF]
    rw [complexF_stable le_rfl, hc]
    cases c with
    | prop nm => simp [Value.isPropertyInst] at hp
    | base =>
      simp only [Value.isObject, Value.isDict, Value.isListTup, Value.isPropertyInst,
        Bool.false_and, Bool.and_false, if_false, Bool.false_eq_true, ite_false]
    | metadata =>
      simp only [Value.isObject, Value.isDict, Value.isListTup, Value.isPropertyInst,
        Bool.false_and, Bool.and_false, if_false, Bool.false_eq_true, ite_false]
    | sub nm =>
      simp only [Value.isObject, Value.isDict, Value.isListTup, Value.isPropertyInst,
        Bool.false_and, Bool.and_false, if_false, Bool.false_eq_true, ite_false]

/-- Unfolding of `print_complex` on a suds object. -/
theorem printComplexv_obj (c : Cls) (kl : List String) (st : List (String × Value))
    (n : Int) (nl : Bool) :
    printComplexv (.vobj c kl st) n nl =
      match printItemsObjv st kl n with
      | .out => .out
      | .err => .err
      | .ok body =>
          .ok ((if nl then "\n" ++ indent n else "")
            ++ (if c = Cls.base then "" else "(" ++ c.clsName ++ ")")
            ++ "\x7b" ++ body ++ "\n" ++ indent n ++ "\x7d") := by
  have hst := rankP_pos st
  have hf : needPComplex (.vobj c kl st) = 4 * rankP st + 4 * kl.length + 6 + 1 := by
    simp only [needPComplex, rankV]; omega
  rw [show printComplexv (.vobj c kl st) n nl
      = printComplexF (needPComplex (.vobj c kl st)) (.vobj c kl st) n nl from rfl, hf]
  simp only [printComplexF]
  rw [printItemsObjF_stable (by simp only [needPItems]; omega)]

/-- Unfolding of `print_complex` on a dict. -/
theorem printComplexv_dict (es : List (String × Value)) (n : Int) (nl : Bool) :
    printComplexv (.vdict es) n nl =
      match printItemsDictv es n with
      | .out => .out
      | .err => .err
      | .ok body =>
          .ok ((if nl then "\n" ++ indent n else "")
            ++ "\x7b" ++ body ++ "\n" ++ indent n ++ "\x7d") := by
  have hes := rankP_pos es
  have hf : needPComplex (.vdict es) = 4 * rankP es + 6 + 1 := by
    simp only [needPComplex, rankV]; omega
  rw [show printComplexv (.vdict es) n nl
      = printComplexF (needPComplex (.vdict es)) (.vdict es) n nl from rfl, hf]
  simp only [printComplexF]
  rw [printItemsDictF_stable (by simp only [needDItems]; omega)]

/-- The item loop of `print_complex` on an empty key list. -/
theorem printItemsObjv_nil (st : List (String × Value)) (n : Int) :
    printItemsObjv st [] n = .ok "" := by
  rw [show printItemsObjv st [] n
      = printItemsObjF (4 * rankP st + 4 * ([] : List String).length + 1 + 1) st [] n from rfl]
  simp only [printItemsObjF]

/-- The item loop of `print_complex` on a non-empty key list. -/
theorem printItemsObjv_cons (st : List (String × Value)) (k : String) (ks : List String)
    (n : Int) :
    printItemsObjv st (k :: ks) n =
      match lookupStore st k with
      | none => .err
      | some u =>
        match processv u n true with
        | .out => .out
        | .err => .err
        | .ok s =>
          match printItemsObjv st ks n with
          | .out => .out
          | .err => .err
          | .ok rest =>
            .ok ("\n" ++ indent (n + 1) ++ (if u.isListTup then k ++ "[]" else k)
              ++ " = " ++ s ++ rest) := by
  have hst := rankP_pos st
  have hf : needPItems st (k :: ks) = 4 * rankP st + 4 * ks.length + 5 + 1 := by
    simp only [needPItems, List.length_cons]; omega
  rw [show printItemsObjv st (k :: ks) n
      = printItemsObjF (needPItems st (k :: ks)) st (k :: ks) n from rfl, hf]
  simp only [printItemsObjF]
  cases hlk : lookupStore st k with
  | none => rfl
  | some u =>
    dsimp only
    have hu := rankV_lookup hlk
    rw [processF_stable (show needProcess u ≤ 4 * rankP st + 4 * ks.length + 5 by
      simp only [needProcess]; omega)]
    cases processv u n true with
    | out => rfl
    | err => rfl
    | ok s =>
      rw [printItemsObjF_stable (show needPItems st ks ≤ 4 * rankP st + 4 * ks.length + 5 by
        simp only [needPItems]; omega)]

/-- The item loop of `print_complex` on an empty dict. -/
theorem printItemsDictv_nil (n : Int) : printItemsDictv [] n = .ok "" := rfl

/-- The item loop of `print_complex` on a non-empty dict. -/
theorem printItemsDictv_cons (k : String) (u : Value) (es : List (String × Value)) (n : Int) :
    printItemsDictv ((k, u) :: es) n =
      match processv u n true with
      | .out => .out
      | .err => .err
      | .ok s =>
        match printItemsDictv es n with
        | .out => .out
        | .err => .err
        | .ok rest =>
          .ok ("\n" ++ indent (n + 1) ++ (if u.isListTup then k ++ "[]" else k)
            ++ " = " ++ s ++ rest) := by
  have hpe := rankP_pos es
  have hf : needDItems ((k, u) :: es) = 4 * rankV u + 4 * rankP es + 3 + 1 := by
    simp only [needDItems, rankP]; omega
  rw [show printItemsDictv ((k, u) :: es) n
      = printItemsDictF (needDItems ((k, u) :: es)) ((k, u) :: es) n from rfl, hf]
  simp only [printItemsDictF]
  rw [processF_stable (show needProcess u ≤ 4 * rankV u + 4 * rankP es + 3 by
    simp only [needProcess]; omega)]
  cases processv u n true with
  | out => rfl
  | err => rfl
  | ok s =>
    rw [printItemsDictF_stable (show needDItems es ≤ 4 * rankV u + 4 * rankP es + 3 by
      simp only [needDItems]; omega)]

/-- The element loop of `print_collection` on an empty list. -/
theorem printCollv_nil (n : Int) : printCollv [] n = .ok "" := rfl

/-- The element loop of `print_collection` on a non-empty list. -/
theorem printCollv_cons (x : Value) (xs : List Value) (n : Int) :
    printCollv (x :: xs) n =
      match processv x (n - 2) false with
      | .out => .out
      | .err => .err
      | .ok s =>
        match printCollv xs n with
        | .out => .out
        | .err => .err
        | .ok rest => .ok ("\n" ++ indent n ++ s ++ "," ++ rest) := by
  have hxs := rankL_pos xs
  have hf : needColl (x :: xs) = 4 * rankV x + 4 * rankL xs + 3 + 1 := by
    simp only [needColl, rankL]; omega
  rw [show printCollv (x :: xs) n = printCollItemsF (needColl (x :: xs)) (x :: xs) n from rfl, hf]
  simp only [printCollItemsF]
  rw [processF_stable (show needProcess x ≤ 4 * rankV x + 4 * rankL xs + 3 by
    simp only [needProcess]; omega)]
  cases processv x (n - 2) false with
  | out => rfl
  | err => rfl
  | ok s =>
    rw [printCollItemsF_stable (show needColl xs ≤ 4 * rankV x + 4 * rankL xs + 3 by
      simp only [needColl]; omega)]

/-- Unfolding of `print_property` on a suds object. -/
theorem printPropertyv_obj (c : Cls) (kl : List String) (st : List (String × Value)) :
    printPropertyv (.vobj c kl st) =
      match lookupStore st "value" with
      | none => .err
      | some u =>
        match processv u 0 false with
        | .out => .out
        | .err => .err
        | .ok s => .ok ("property:" ++ c.clsName ++ "=" ++ s) := by
  have hst := rankP_pos st
  have hf : needPProp (.vobj c kl st) = 4 * rankP st + 4 * kl.length + 6 + 1 := by
    simp only [needPProp, rankV]; omega
  rw [show printPropertyv (.vobj c kl st)
      = printPropertyF (needPProp (.vobj c kl st)) (.vobj c kl st) from rfl, hf]
  simp only [printPropertyF]
  cases hlk : lookupStore st "value" with
  | none => rfl
  | some u =>
    dsimp only
    have hu := rankV_lookup hlk
    rw [processF_stable (show needProcess u ≤ 4 * rankP st + 4 * kl.length + 6 by
      simp only [needProcess]; omega)]

theorem stabWF : ∀ m : Nat, StabWF m := by
  intro m
  induction m with
  | zero =>
    refine ⟨?_, ?_, ?_⟩
    · intro f g v h1 h2 h3 h4
      exfalso; have := rankV_pos v; omega
    · intro f g es h1 h2 h3 h4
      exfalso; have := rankP_pos es; omega
    · intro f g xs h1 h2 h3 h4
      exfalso; have := rankL_pos xs; omega
  | succ m IH =>
    obtain ⟨ihV, ihP2, ihL⟩ := IH
    refine ⟨?_, ?_, ?_⟩
    · intro f g v h1 h2 h3 h4
      have hv := rankV_pos v
      obtain ⟨f', rfl⟩ : ∃ f', f = f' + 1 := ⟨f - 1, by omega⟩
      obtain ⟨g', rfl⟩ : ∃ g', g = g' + 1 := ⟨g - 1, by omega⟩
      cases v with
      | vnone => simp [valWFF]
      | vint k => simp [valWFF]
      | vstr s => simp [valWFF]
      | vlist xs =>
        simp only [valWFF]
        simp only [rankV] at h1 h2
        exact ihL f' g' xs (by omega) (by omega) (by omega) (by omega)
      | vdict es =>
        simp only [valWFF]
        simp only [rankV] at h1 h2
        exact ihP2 f' g' es (by omega) (by omega) (by omega) (by omega)
      | vobj c kl st =>
        simp only [valWFF]
        simp only [rankV] at h1 h2
        have hst := rankP_pos st
        rw [ihP2 f' g' st (by omega) (by omega) (by omega) (by omega)]
    · intro f g es h1 h2 h3 h4
      have hes := rankP_pos es
      obtain ⟨f', rfl⟩ : ∃ f', f = f' + 1 := ⟨f - 1, by omega⟩
      obtain ⟨g', rfl⟩ : ∃ g', g = g' + 1 := ⟨g - 1, by omega⟩
      cases es with
      | nil => simp [pairsWFF]
      | cons p es =>
        obtain ⟨k, u⟩ := p
        simp only [pairsWFF]
        simp only [rankP] at h1 h2
        have hpe := rankP_pos es
        have hu := rankV_pos u
        rw [ihV f' g' u (by omega) (by omega) (by omega) (by omega),
          ihP2 f' g' es (by omega) (by omega) (by omega) (by omega)]
    · intro f g xs h1 h2 h3 h4
      have hxs := rankL_pos xs
      obtain ⟨f', rfl⟩ : ∃ f', f = f' + 1 := ⟨f - 1, by omega⟩
      obtain ⟨g', rfl⟩ : ∃ g', g = g' + 1 := ⟨g - 1, by omega⟩
      cases xs with
      | nil => simp [listWFF]
      | cons x xs =>
        simp only [listWFF]
        simp only [rankL] at h1 h2
        have hxs2 := rankL_pos xs
        have hx := rankV_pos x
        rw [ihV f' g' x (by omega) (by omega) (by omega) (by omega),
          ihL f' g' xs (by omega) (by omega) (by omega) (by omega)]

/-- Any sufficient fuel computes `valWF`. -/
theorem valWFF_stable {v : Value} {f : Nat} (h : rankV v ≤ f) : valWFF f v = valWF v :=
  (stabWF (max f (rankV v))).1 f (rankV v) v h le_rfl (le_max_left _ _) (le_max_right _ _)

/-- Any sufficient fuel computes `pairsWF`. -/
theorem pairsWFF_stable {es : List (String × Value)} {f : Nat} (h : rankP es ≤ f) :
    pairsWFF f es = pairsWF es :=
  (stabWF (max f (rankP es))).2.1 f (rankP es) es h le_rfl (le_max_left _ _) (le_max_right _ _)

/-- Any sufficient fuel computes `listWF`. -/
theorem listWFF_stable {xs : List Value} {f : Nat} (h : rankL xs ≤ f) :
    listWFF f xs = listWF xs :=
  (stabWF (max f (rankL xs))).2.2 f (rankL xs) xs h le_rfl (le_max_left _ _) (le_max_right _ _)

/-- Unfolding of `valWF` on a suds object. -/
theorem valWF_obj (c : Cls) (kl : List String) (st : List (String × Value)) :
    valWF (.vobj c kl st) =
      ((match c with
        | .prop _ => (lookupStore st "value").isSome
        | _ => true)
       && kl.all (fun k => (lookupStore st k).isSome)
       && pairsWF st) := by
  have hst := rankP_pos st
  have hf : rankV (.vobj c kl st) = kl.length + rankP st + 1 := by
    simp only [rankV]; omega
  rw [show valWF (.vobj c kl st) = valWFF (rankV (.vobj c kl st)) (.vobj c kl st) from rfl, hf]
  simp only [valWFF]
  rw [pairsWFF_stable (by omega)]

/-- Unfolding of `valWF` on a dict. -/
theorem valWF_dict (es : List (String × Value)) : valWF (.vdict es) = pairsWF es := by
  have hes := rankP_pos es
  have hf : rankV (.vdict es) = rankP es + 1 := by simp only [rankV]; omega
  rw [show valWF (.vdict es) = valWFF (rankV (.vdict es)) (.vdict es) from rfl, hf]
  simp only [valWFF]
  rw [pairsWFF_stable (by omega)]

/-- Unfolding of `valWF` on a list. -/
theorem valWF_list (xs : List Value) : valWF (.vlist xs) = listWF xs := by
  have hxs := rankL_pos xs
  have hf : rankV (.vlist xs) = rankL xs + 1 := by simp only [rankV]; omega
  rw [show valWF (.vlist xs) = valWFF (rankV (.vlist xs)) (.vlist xs) from rfl, hf]
  simp only [valWFF]
  rw [listWFF_stable (by omega)]

/-- Scalars are always well-formed. -/
theorem valWF_none : valWF .vnone = true := rfl

/-- Integers are always well-formed. -/
theorem valWF_int (k : Int) : valWF (.vint k) = true := rfl

/-- Strings are always well-formed. -/
theorem valWF_str (s : String) : valWF (.vstr s) = true := rfl

/-- Unfolding of `pairsWF` on an empty association list. -/
theorem pairsWF_nil : pairsWF [] = true := rfl

/-- Unfolding of `pairsWF` on a non-empty association list. -/
theorem pairsWF_cons (k : String) (u : Value) (es : List (String × Value)) :
    pairsWF ((k, u) :: es) = (valWF u && pairsWF es) := by
  have hu := rankV_pos u
  have hpe := rankP_pos es
  have hf : rankP ((k, u) :: es) = rankV u + rankP es + 1 := by simp only [rankP]; omega
  rw [show pairsWF ((k, u) :: es) = pairsWFF (rankP ((k, u) :: es)) ((k, u) :: es) from rfl, hf]
  simp only [pairsWFF]
  rw [valWFF_stable (by omega), pairsWFF_stable (by omega)]

/-- Unfolding of `listWF` on an empty list. -/
theorem listWF_nil : listWF [] = true := rfl

/-- Unfolding of `listWF` on a non-empty list. -/
theorem listWF_cons (x : Value) (xs : List Value) :
    listWF (x :: xs) = (valWF x && listWF xs) := by
  have hx := rankV_pos x
  have hxs := rankL_pos xs
  have hf : rankL (x :: xs) = rankV x + rankL xs + 1 := by simp only [rankL]; omega
  rw [show listWF (x :: xs) = listWFF (rankL (x :: xs)) (x :: xs) from rfl, hf]
  simp only [listWFF]
  rw [valWFF_stable (by omega), listWFF_stable (by omega)]

/-- A value looked up in a well-formed store is well-formed. -/
theorem pairsWF_lookup {st : List (String × Value)} {k : String} {u : Value}
    (hwf : pairsWF st = true) (h : lookupStore st k = some u) : valWF u = true := by
  induction st with
  | nil => simp [lookupStore] at h
  | cons p rest ih =>
    obtain ⟨a, b⟩ := p
    rw [pairsWF_cons] at hwf
    simp only [Bool.and_eq_true] at hwf
    simp only [lookupStore] at h
    split at h
    · cases h; exact hwf.1
    · exact ih hwf.2 h

/-- `getattrs` succeeds when every requested key is present. -/
theorem getattrs_total {st : List (String × Value)} {kl : List String}
    (h : ∀ k ∈ kl, (lookupStore st k).isSome) : ∃ es, getattrs st kl = some es := by
  induction kl with
  | nil => exact ⟨[], rfl⟩
  | cons k ks ih =>
    have hk := h k (by simp)
    obtain ⟨u, hu⟩ : ∃ u, lookupStore st k = some u := by
      cases hlk : lookupStore st k with
      | none => rw [hlk] at hk; simp at hk
      | some u => exact ⟨u, rfl⟩
    obtain ⟨es, hes⟩ := ih (fun k' hk' => h k' (by simp [hk']))
    exact ⟨(k, u) :: es, by simp [getattrs, hu, hes]⟩

/-- The inline tail of `process` always returns normally. -/
theorem processTail_ok (w : Value) : ∃ s, processTail w = .ok s := by
  cases w with
  | vdict es =>
    by_cases h : 0 < es.length
    · exact ⟨sudsTostr (.vdict es), by simp [processTail, h]⟩
    · exact ⟨"<empty>", by simp [processTail, h]⟩
  | vlist xs =>
    by_cases h : 0 < xs.length
    · exact ⟨sudsTostr (.vlist xs), by simp [processTail, h]⟩
    · exact ⟨"<empty>", by simp [processTail, h]⟩
  | vnone => exact ⟨_, rfl⟩
  | vint k => exact ⟨_, rfl⟩
  | vstr s => exact ⟨_, rfl⟩
  | vobj c kl st => exact ⟨_, rfl⟩

theorem totalAll : ∀ m : Nat, TotalAll m := by
  intro m
  induction m with
  | zero =>
    refine ⟨?_, ?_, ?_, ?_, ?_, ?_, ?_, ?_, ?_, ?_⟩
    · intro v h1 h2; exfalso; have := rankV_pos v; omega
    · intro st kl h1 h2 h3; exfalso; have := rankP_pos st; omega
    · intro es h1 h2; exfalso; have := rankP_pos es; omega
    · intro xs h1 h2; exfalso; have := rankL_pos xs; omega
    · intro v n nl h1 h2; exfalso; have := rankV_pos v; omega
    · intro v n nl h1 h2 h3; exfalso; have := rankV_pos v; omega
    · intro st kl n h1 h2 h3; exfalso; have := rankP_pos st; omega
    · intro es n h1 h2; exfalso; have := rankP_pos es; omega
    · intro xs n h1 h2; exfalso; have := rankL_pos xs; omega
    · intro v h1 h2 h3; exfalso; have := rankV_pos v; omega
  | succ m IH =>
    obtain ⟨ih1, ih2, ih3, ih4, ih5, ih6, ih7, ih8, ih9, ih10⟩ := IH
    have T1 : ∀ v, rankV v ≤ m + 1 → valWF v = true → ∃ b, complexv v = .ok b := by
      intro v h1 h2
      cases v with
      | vnone => exact ⟨false, complexv_none⟩
      | vint k => exact ⟨false, complexv_int k⟩
      | vstr s => exact ⟨false, complexv_str s⟩
      | vlist xs =>
        rw [complexv_list]
        by_cases hl : 1 < xs.length
        · exact ⟨true, by simp [hl]⟩
        · simp only [hl, if_false]
          rw [valWF_list] at h2
          simp only [rankV] at h1
          exact ih4 xs (by omega) h2
      | vdict es =>
        rw [complexv_dict]
        by_cases hl : 1 < es.length
        · exact ⟨true, by simp [hl]⟩
        · simp only [hl, if_false]
          rw [valWF_dict] at h2
          simp only [rankV] at h1
          exact ih3 es (by omega) h2
      | vobj c kl st =>
        rw [complexv_obj]
        by_cases hl : 1 < kl.length
        · exact ⟨true, by simp [hl]⟩
        · simp only [hl, if_false]
          rw [valWF_obj] at h2
          simp only [Bool.and_eq_true, List.all_eq_true] at h2
          simp only [rankV] at h1
          exact ih2 st kl (by omega) (fun k hk => h2.1.2 k hk) h2.2
    have T2 : ∀ st kl, rankP st + kl.length ≤ m + 1 →
        (∀ k ∈ kl, (lookupStore st k).isSome) → pairsWF st = true →
        ∃ b, complexKeysv st kl = .ok b := by
      intro st kl h1 h2 h3
      cases kl with
      | nil => exact ⟨false, complexKeysv_nil st⟩
      | cons k ks =>
        rw [complexKeysv_cons]
        have hk := h2 k (by simp)
        obtain ⟨u, hu⟩ : ∃ u, lookupStore st k = some u := by
          cases hlk : lookupStore st k with
          | none => rw [hlk] at hk; simp at hk
          | some u => exact ⟨u, rfl⟩
        rw [hu]
        dsimp only
        have hru := rankV_lookup hu
        simp only [List.length_cons] at h1
        obtain ⟨b, hb⟩ := ih1 u (by omega) (pairsWF_lookup h3 hu)
        rw [hb]
        cases b with
        | true => exact ⟨true, rfl⟩
        | false =>
          exact ih2 st ks (by omega) (fun k' hk' => h2 k' (by simp [hk'])) h3
    have T3 : ∀ es, rankP es ≤ m + 1 → pairsWF es = true → ∃ b, complexPairsv es = .ok b := by
      intro es h1 h2
      cases es with
      | nil => exact ⟨false, complexPairsv_nil⟩
      | cons p es =>
        obtain ⟨k, u⟩ := p
        rw [complexPairsv_cons]
        rw [pairsWF_cons] at h2
        simp only [Bool.and_eq_true] at h2
        simp only [rankP] at h1
        have := rankP_pos es
        obtain ⟨b, hb⟩ := ih1 u (by omega) h2.1
        rw [hb]
        cases b with
        | true => exact ⟨true, rfl⟩
        | false => exact ih3 es (by omega) h2.2
    have T4 : ∀ xs, rankL xs ≤ m + 1 → listWF xs = true → ∃ b, complexListv xs = .ok b := by
      intro xs h1 h2
      cases xs with
      | nil => exact ⟨false, complexListv_nil⟩
      | cons x xs =>
        rw [complexListv_cons]
        rw [listWF_cons] at h2
        simp only [Bool.and_eq_true] at h2
        simp only [rankL] at h1
        have := rankL_pos xs
        obtain ⟨b, hb⟩ := ih1 x (by omega) h2.1
        rw [hb]
        cases b with
        | true => exact ⟨true, rfl⟩
        | false => exact ih4 xs (by omega) h2.2
    have T7 : ∀ st kl n, rankP st + kl.length ≤ m + 1 →
        (∀ k ∈ kl, (lookupStore st k).isSome) → pairsWF st = true →
        ∃ s, printItemsObjv st kl n = .ok s := by
      intro st kl n h1 h2 h3
      cases kl with
      | nil => exact ⟨"", printItemsObjv_nil st n⟩
      | cons k ks =>
        rw [printItemsObjv_cons]
        have hk := h2 k (by simp)
        obtain ⟨u, hu⟩ : ∃ u, lookupStore st k = some u := by
          cases hlk : lookupStore st k with
          | none => rw [hlk] at hk; simp at hk
          | some u => exact ⟨u, rfl⟩
        rw [hu]
        dsimp only
        have hru := rankV_lookup hu
        simp only [List.length_cons] at h1
        obtain ⟨s, hs⟩ := ih5 u n true (by omega) (pairsWF_lookup h3 hu)
        rw [hs]
        obtain ⟨rest, hrest⟩ := ih7 st ks n (by omega)
          (fun k' hk' => h2 k' (by simp [hk'])) h3
        rw [hrest]
        exact ⟨_, rfl⟩
    have T8 : ∀ es n, rankP es ≤ m + 1 → pairsWF es = true →
        ∃ s, printItemsDictv es n = .ok s := by
      intro es n h1 h2
      cases es with
      | nil => exact ⟨"", printItemsDictv_nil n⟩
      | cons p es =>
        obtain ⟨k, u⟩ := p
        rw [printItemsDictv_cons]
        rw [pairsWF_cons] at h2
        simp only [Bool.and_eq_true] at h2
        simp only [rankP] at h1
        have := rankP_pos es
        obtain ⟨s, hs⟩ := ih5 u n true (by omega) h2.1
        rw [hs]
        obtain ⟨rest, hrest⟩ := ih8 es n (by omega) h2.2
        rw [hrest]
        exact ⟨_, rfl⟩
    have T9 : ∀ xs n, rankL xs ≤ m + 1 → listWF xs = true → ∃ s, printCollv xs n = .ok s := by
      intro xs n h1 h2
      cases xs with
      | nil => exact ⟨"", printCollv_nil n⟩
      | cons x xs =>
        rw [printCollv_cons]
        rw [listWF_cons] at h2
        simp only [Bool.and_eq_true] at h2
        simp only [rankL] at h1
        have := rankL_pos xs
        obtain ⟨s, hs⟩ := ih5 x (n - 2) false (by omega) h2.1
        rw [hs]
        obtain ⟨rest, hrest⟩ := ih9 xs n (by omega) h2.2
        rw [hrest]
        exact ⟨_, rfl⟩
    have T6 : ∀ v n nl, rankV v ≤ m + 1 → valWF v = true →
        (Value.isObject v || Value.isDict v) = true → ∃ s, printComplexv v n nl = .ok s := by
      intro v n nl h1 h2 h3
      cases v with
      | vnone => simp [Value.isObject, Value.isDict] at h3
      | vint k => simp [Value.isObject, Value.isDict] at h3
      | vstr s => simp [Value.isObject, Value.isDict] at h3
      | vlist xs => simp [Value.isObject, Value.isDict] at h3
      | vdict es =>
        rw [printComplexv_dict]
        rw [valWF_dict] at h2
        simp only [rankV] at h1
        obtain ⟨body, hbody⟩ := T8 es n (by omega) h2
        rw [hbody]
        exact ⟨_, rfl⟩
      | vobj c kl st =>
        rw [printComplexv_obj]
        rw [valWF_obj] at h2
        simp only [Bool.and_eq_true, List.all_eq_true] at h2
        simp only [rankV] at h1
        obtain ⟨body, hbody⟩ := T7 st kl n (by omega) (fun k hk => h2.1.2 k hk) h2.2
        rw [hbody]
        exact ⟨_, rfl⟩
    have T10 : ∀ v, rankV v ≤ m + 1 → valWF v = true → Value.isPropertyInst v = true →
        ∃ s, printPropertyv v = .ok s := by
      intro v h1 h2 h3
      cases v with
      | vnone => simp [Value.isPropertyInst] at h3
      | vint k => simp [Value.isPropertyInst] at h3
      | vstr s => simp [Value.isPropertyInst] at h3
      | vlist xs => simp [Value.isPropertyInst] at h3
      | vdict es => simp [Value.isPropertyInst] at h3
      | vobj c kl st =>
        rw [printPropertyv_obj]
        rw [valWF_obj] at h2
        simp only [Bool.and_eq_true, List.all_eq_true] at h2
        cases c with
        | base => simp [Value.isPropertyInst] at h3
        | metadata => simp [Value.isPropertyInst] at h3
        | sub nm => simp [Value.isPropertyInst] at h3
        | prop nm =>
          obtain ⟨u, hu⟩ : ∃ u, lookupStore st "value" = some u := by
            have hv := h2.1.1
            cases hlk : lookupStore st "value" with
            | none => rw [hlk] at hv; simp at hv
            | some u => exact ⟨u, rfl⟩
          rw [hu]
          dsimp only
          have hru := rankV_lookup hu
          simp only [rankV] at h1
          obtain ⟨s, hs⟩ := ih5 u 0 false (by omega) (pairsWF_lookup h2.2 hu)
          rw [hs]
          exact ⟨_, rfl⟩
    have T5 : ∀ v n nl, rankV v ≤ m + 1 → valWF v = true → ∃ s, processv v n nl = .ok s := by
      intro v n nl h1 h2
      obtain ⟨b, hb⟩ := T1 v h1 h2
      cases v with
      | vnone => exact ⟨"None", processv_none n nl⟩
      | vint k => exact ⟨_, processv_int k n nl⟩
      | vstr s => exact ⟨_, processv_str s n nl⟩
      | vlist xs =>
        cases b with
        | true =>
          rw [processv_complex_list n nl hb]
          rw [valWF_list] at h2
          simp only [rankV] at h1
          exact T9 xs (n + 2) (by omega) h2
        | false =>
          rw [processv_plain n nl hb (by simp [Value.isPropertyInst]) (by simp)]
          simp only [asdictVal]
          exact processTail_ok _
      | vdict es =>
        cases b with
        | true =>
          rw [processv_complex_obj n nl hb (by simp [Value.isObject, Value.isDict])]
          exact T6 (.vdict es) (n + 2) nl h1 h2 (by simp [Value.isObject, Value.isDict])
        | false =>
          rw [processv_plain n nl hb (by simp [Value.isPropertyInst]) (by simp)]
          simp only [asdictVal]
          exact processTail_ok _
      | vobj c kl st =>
        cases b with
        | true =>
          rw [processv_complex_obj n nl hb (by simp [Value.isObject, Value.isDict])]
          exact T6 (.vobj c kl st) (n + 2) nl h1 h2 (by simp [Value.isObject, Value.isDict])
        | false =>
          cases c with
          | prop nm =>
            rw [processv_prop n nl hb]
            exact T10 _ h1 h2 (by simp [Value.isPropertyInst])
          | base =>
            rw [processv_plain n nl hb (by simp [Value.isPropertyInst]) (by simp)]
            simp only [asdictVal]
            rw [valWF_obj] at h2
            simp only [Bool.and_eq_true, List.all_eq_true] at h2
            obtain ⟨es, hes⟩ := getattrs_total (fun k hk => h2.1.2 k hk)
            rw [hes]
            exact processTail_ok _
          | metadata =>
            rw [processv_plain n nl hb (by simp [Value.isPropertyInst]) (by simp)]
            simp only [asdictVal]
            rw [valWF_obj] at h2
            simp only [Bool.and_eq_true, List.all_eq_true] at h2
            obtain ⟨es, hes⟩ := getattrs_total (fun k hk => h2.1.2 k hk)
            rw [hes]
            exact processTail_ok _
          | sub nm =>
            rw [processv_plain n nl hb (by simp [Value.isPropertyInst]) (by simp)]
            simp only [asdictVal]
            rw [valWF_obj] at h2
            simp only [Bool.and_eq_true, List.all_eq_true] at h2
            obtain ⟨es, hes⟩ := getattrs_total (fun k hk => h2.1.2 k hk)
            rw [hes]
            exact processTail_ok _
    exact ⟨T1, T2, T3, T4, T5, T6, T7, T8, T9, T10⟩

/-- `complexv` returns normally on well-formed values. -/
theorem complexv_total {v : Value} (h : valWF v = true) : ∃ b, complexv v = .ok b :=
  (totalAll (rankV v)).1 v le_rfl h

/-- `processv` returns normally on well-formed values: rendering a
well-formed record never raises `MissingFieldError`. -/
theorem processv_total {v : Value} (n : Int) (nl : Bool) (h : valWF v = true) :
    ∃ s, processv v n nl = .ok s :=
  (totalAll (rankV v)).2.2.2.2.1 v n nl le_rfl h

/-- Writing a key makes it readable with the written value. -/
theorem lookupStore_storePut_self (st : List (String × Value)) (k : String) (v : Value) :
    lookupStore (storePut st k v) k = some v := by
  induction st with
  | nil => simp [storePut, lookupStore]
  | cons p rest ih =>
    obtain ⟨a, b⟩ := p
    simp only [storePut]
    split
    · simp_all [lookupStore]
    · simp only [lookupStore]
      split
      · simp_all
      · exact ih

/-- Writing a key leaves other keys unchanged. -/
theorem lookupStore_storePut_other (st : List (String × Value)) {k k' : String} (v : Value)
    (h : k' ≠ k) : lookupStore (storePut st k v) k' = lookupStore st k' := by
  induction st with
  | nil => simp [storePut, lookupStore, Ne.symm h]
  | cons p rest ih =>
    obtain ⟨a, b⟩ := p
    simp only [storePut]
    split
    · rename_i hak
      subst hak
      simp only [lookupStore]
      split
      · simp_all
      · rfl
    · simp only [lookupStore]
      split
      · rfl
      · exact ih

/-- Writing a key never removes the presence of any key. -/
theorem lookupStore_storePut_isSome (st : List (String × Value)) (k k' : String) (v : Value)
    (h : (lookupStore st k').isSome) : (lookupStore (storePut st k v) k').isSome := by
  by_cases hk : k' = k
  · subst hk; simp [lookupStore_storePut_self]
  · rw [lookupStore_storePut_other st v hk]; exact h

/-- A store updated with a well-formed value stays well-formed. -/
theorem pairsWF_storePut {st : List (String × Value)} {k : String} {v : Value}
    (hst : pairsWF st = true) (hv : valWF v = true) : pairsWF (storePut st k v) = true := by
  induction st with
  | nil => simp [storePut, pairsWF_cons, hv, pairsWF_nil]
  | cons p rest ih =>
    obtain ⟨a, b⟩ := p
    rw [pairsWF_cons] at hst
    simp only [Bool.and_eq_true] at hst
    simp only [storePut]
    split
    · rw [pairsWF_cons]
      simp [hv, hst.2]
    · rw [pairsWF_cons]
      simp [hst.1, ih hst.2]

/-- `setAttr` preserves well-formedness when the assigned value is
well-formed. -/
theorem valWF_setAttr {r : Value} {nm : String} {v : Value}
    (hr : valWF r = true) (hv : valWF v = true) : valWF (setAttr r nm v) = true := by
  cases r with
  | vnone => exact hr
  | vint k => exact hr
  | vstr s => exact hr
  | vlist xs => exact hr
  | vdict es => exact hr
  | vobj c kl st =>
    simp only [setAttr]
    rw [valWF_obj] at hr ⊢
    simp only [Bool.and_eq_true, List.all_eq_true] at hr ⊢
    refine ⟨⟨?_, ?_⟩, ?_⟩
    · cases c with
      | prop pn => exact lookupStore_storePut_isSome st nm "value" v hr.1.1
      | base => rfl
      | metadata => rfl
      | sub sn => rfl
    · intro k hk
      split at hk
      · rcases List.mem_append.1 hk with hmem | hmem
        · exact lookupStore_storePut_isSome st nm k v (hr.1.2 k hmem)
        · have : k = nm := by simpa using hmem
          subst this
          simp [lookupStore_storePut_self]
      · exact lookupStore_storePut_isSome st nm k v (hr.1.2 k hk)
    · exact pairsWF_storePut hr.2 hv

/-- `setFields` preserves well-formedness when all assigned values are
well-formed. -/
theorem valWF_setFields {r : Value} {ps : List (String × Value)}
    (hr : valWF r = true) (hps : ∀ p ∈ ps, valWF p.2 = true) :
    valWF (setFields r ps) = true := by
  induction ps generalizing r with
  | nil => exact hr
  | cons p rest ih =>
    obtain ⟨k, v⟩ := p
    simp only [setFields]
    exact ih (valWF_setAttr hr (hps (k, v) (by simp))) (fun q hq => hps q (by simp [hq]))

/-- `setAttr` keeps a suds object a suds object with the same class. -/
theorem setAttr_isObject {r : Value} (h : r.isObject = true) (nm : String) (v : Value) :
    (setAttr r nm v).isObject = true := by
  cases r <;> simp_all [setAttr, Value.isObject]

/-- Keys already visible keep the key list unchanged under `setAttr`. -/
theorem objKeys_setAttr_mem {r : Value} {nm : String} (v : Value)
    (h : nm ∈ objKeys r) : objKeys (setAttr r nm v) = objKeys r := by
  cases r with
  | vobj c kl st =>
    simp only [objKeys] at h
    simp only [setAttr, objKeys]
    have : kl.contains nm = true := List.elem_iff.mpr h
    simp [this]
    exact fun _ => h
  | vnone => rfl
  | vint k => rfl
  | vstr s => rfl
  | vlist xs => rfl
  | vdict es => rfl

/-- A fresh non-reserved key is appended to the key list by `setAttr`. -/
theorem objKeys_setAttr_new {r : Value} {nm : String} (v : Value)
    (hobj : r.isObject = true) (hres : reserved nm = false) (h : nm ∉ objKeys r) :
    objKeys (setAttr r nm v) = objKeys r ++ [nm] := by
  cases r with
  | vobj c kl st =>
    simp only [objKeys] at h
    simp only [setAttr, objKeys]
    have hc : kl.contains nm = false := by
      by_contra hcc
      simp only [Bool.not_eq_false] at hcc
      exact h (List.elem_iff.mp hcc)
    simp [hres, hc]
    exact h
  | vnone => simp [Value.isObject] at hobj
  | vint k => simp [Value.isObject] at hobj
  | vstr s => simp [Value.isObject] at hobj
  | vlist xs => simp [Value.isObject] at hobj
  | vdict es => simp [Value.isObject] at hobj

/-- Reading back the key just assigned returns the assigned value. -/
theorem getAttr_setAttr_self {r : Value} (hobj : r.isObject = true) (nm : String) (v : Value) :
    getAttr (setAttr r nm v) nm = some v := by
  cases r with
  | vobj c kl st => simp [setAttr, getAttr, lookupStore_storePut_self]
  | vnone => simp [Value.isObject] at hobj
  | vint k => simp [Value.isObject] at hobj
  | vstr s => simp [Value.isObject] at hobj
  | vlist xs => simp [Value.isObject] at hobj
  | vdict es => simp [Value.isObject] at hobj

/-- Assignment to one key does not change reads of another. -/
theorem getAttr_setAttr_other {r : Value} {nm nm' : String} (v : Value) (h : nm' ≠ nm) :
    getAttr (setAttr r nm v) nm' = getAttr r nm' := by
  cases r with
  | vobj c kl st => simp [setAttr, getAttr, lookupStore_storePut_other st v h]
  | vnone => rfl
  | vint k => rfl
  | vstr s => rfl
  | vlist xs => rfl
  | vdict es => rfl

/-- `setFields` with names disjoint from a key leaves its read unchanged. -/
theorem getAttr_setFields_frame {r : Value} {ps : List (String × Value)} {nm : String}
    (h : nm ∉ ps.map Prod.fst) : getAttr (setFields r ps) nm = getAttr r nm := by
  induction ps generalizing r with
  | nil => rfl
  | cons p rest ih =>
    obtain ⟨k, v⟩ := p
    simp only [List.map_cons, List.mem_cons, not_or] at h
    simp only [setFields]
    rw [ih h.2, getAttr_setAttr_other v h.1]

/-- `setFields` keeps a suds object a suds object. -/
theorem setFields_isObject {r : Value} (h : r.isObject = true) (ps : List (String × Value)) :
    (setFields r ps).isObject = true := by
  induction ps generalizing r with
  | nil => exact h
  | cons p rest ih =>
    obtain ⟨k, v⟩ := p
    exact ih (setAttr_isObject h k v)

/-- `setAttr` either leaves the key list unchanged (reserved or existing
name) or appends the fresh non-reserved name. -/
theorem objKeys_setAttr_cases (r : Value) (nm : String) (v : Value) :
    objKeys (setAttr r nm v) = objKeys r ∨
      (reserved nm = false ∧ nm ∉ objKeys r ∧
        objKeys (setAttr r nm v) = objKeys r ++ [nm]) := by
  cases r with
  | vobj c kl st =>
    by_cases hres : reserved nm = true
    · left; simp [setAttr, objKeys, hres]
    · by_cases hmem : nm ∈ kl
      · left; exact objKeys_setAttr_mem v (by simpa [objKeys] using hmem)
      · right
        refine ⟨by simpa using hres, by simpa [objKeys] using hmem, ?_⟩
        exact objKeys_setAttr_new v (by simp [Value.isObject]) (by simpa using hres)
          (by simpa [objKeys] using hmem)
  | vnone => left; rfl
  | vint k => left; rfl
  | vstr s => left; rfl
  | vlist xs => left; rfl
  | vdict es => left; rfl

/-- `setAttr` preserves distinctness and non-reservedness of the key list. -/
theorem keysInv_setAttr {r : Value} (nm : String) (v : Value)
    (hnd : (objKeys r).Nodup) (hres : ∀ k ∈ objKeys r, reserved k = false) :
    (objKeys (setAttr r nm v)).Nodup ∧
      ∀ k ∈ objKeys (setAttr r nm v), reserved k = false := by
  rcases objKeys_setAttr_cases r nm v with h | ⟨h1, h2, h3⟩
  · rw [h]; exact ⟨hnd, hres⟩
  · rw [h3]
    constructor
    · exact hnd.append (List.nodup_singleton nm) (by simpa [List.disjoint_singleton] using h2)
    · intro k hk
      rcases List.mem_append.1 hk with hk | hk
      · exact hres k hk
      · have : k = nm := by simpa using hk
        subst this; exact h1

/-- `setFields` preserves distinctness and non-reservedness of the key
list. -/
theorem keysInv_setFields {r : Value} (ps : List (String × Value))
    (hnd : (objKeys r).Nodup) (hres : ∀ k ∈ objKeys r, reserved k = false) :
    (objKeys (setFields r ps)).Nodup ∧
      ∀ k ∈ objKeys (setFields r ps), reserved k = false := by
  induction ps generalizing r with
  | nil => exact ⟨hnd, hres⟩
  | cons p rest ih =>
    obtain ⟨k, v⟩ := p
    obtain ⟨h1, h2⟩ := keysInv_setAttr k v hnd hres
    exact ih h1 h2

/-- Presence of a key survives `setAttr`. -/
theorem getAttr_setAttr_isSome_mono {r : Value} {nm : String} (k : String) (v : Value)
    (h : (getAttr r nm).isSome) : (getAttr (setAttr r k v) nm).isSome := by
  cases r with
  | vobj c kl st =>
    by_cases hk : nm = k
    · subst hk; simp [getAttr_setAttr_self (r := .vobj c kl st) (by simp [Value.isObject])]
    · rw [getAttr_setAttr_other v hk]; exact h
  | vnone => exact h
  | vint i => exact h
  | vstr s => exact h
  | vlist xs => exact h
  | vdict es => exact h

/-- Presence of a key survives `setFields`. -/
theorem getAttr_setFields_isSome_mono {r : Value} {nm : String} (ps : List (String × Value))
    (h : (getAttr r nm).isSome) : (getAttr (setFields r ps) nm).isSome := by
  induction ps generalizing r with
  | nil => exact h
  | cons p rest ih =>
    obtain ⟨k, v⟩ := p
    exact ih (getAttr_setAttr_isSome_mono k v h)

/-- Every name assigned by `setFields` is present afterwards. -/
theorem getAttr_setFields_assigned {r : Value} (hobj : r.isObject = true)
    (ps : List (String × Value)) :
    ∀ p ∈ ps, (getAttr (setFields r ps) p.1).isSome := by
  induction ps generalizing r with
  | nil => simp
  | cons q rest ih =>
    obtain ⟨k, v⟩ := q
    intro p hp
    rcases List.mem_cons.1 hp with h | h
    · subst h
      simp only [setFields]
      exact getAttr_setFields_isSome_mono rest
        (by simp [getAttr_setAttr_self hobj])
    · simp only [setFields]
      exact ih (setAttr_isObject hobj k v) p h

/-- Presence of a key after `setAttr`, as an iff. -/
theorem getAttr_setAttr_isSome_iff {r : Value} (hobj : r.isObject = true)
    (nm k : String) (v : Value) :
    (getAttr (setAttr r k v) nm).isSome = true ↔ nm = k ∨ (getAttr r nm).isSome = true := by
  by_cases hk : nm = k
  · subst hk; simp [getAttr_setAttr_self hobj]
  · rw [getAttr_setAttr_other v hk]; simp [hk]

/-- Presence of a key after `setFields`, as an iff. -/
theorem getAttr_setFields_isSome_iff {r : Value} (hobj : r.isObject = true)
    (nm : String) (ps : List (String × Value)) :
    (getAttr (setFields r ps) nm).isSome = true ↔
      (getAttr r nm).isSome = true ∨ nm ∈ ps.map Prod.fst := by
  induction ps generalizing r with
  | nil => simp [setFields]
  | cons p rest ih =>
    obtain ⟨k, v⟩ := p
    simp only [setFields]
    rw [ih (setAttr_isObject hobj k v)]
    rw [getAttr_setAttr_isSome_iff hobj nm k v]
    simp only [List.map_cons, List.mem_cons]
    tauto

/-- With distinct names, each assigned pair is readable afterwards. -/
theorem getAttr_setFields_mem {r : Value} (hobj : r.isObject = true)
    {ps : List (String × Value)} (hnd : (ps.map Prod.fst).Nodup)
    {k : String} {w : Value} (hmem : (k, w) ∈ ps) :
    getAttr (setFields r ps) k = some w := by
  induction ps generalizing r with
  | nil => simp at hmem
  | cons q rest ih =>
    obtain ⟨k0, w0⟩ := q
    simp only [List.map_cons, List.nodup_cons] at hnd
    rcases List.mem_cons.1 hmem with h | h
    · rw [Prod.mk.injEq] at h
      obtain ⟨h1, h2⟩ := h
      subst h1; subst h2
      simp only [setFields]
      rw [getAttr_setFields_frame hnd.1]
      exact getAttr_setAttr_self hobj k w
    · simp only [setFields]
      exact ih (setAttr_isObject hobj k0 w0) hnd.2 h

/-- `setFields` with fresh, distinct, non-reserved names appends them to
the key list in assignment order. -/
theorem objKeys_setFields {r : Value} (hobj : r.isObject = true)
    {ps : List (String × Value)} (hnd : (ps.map Prod.fst).Nodup)
    (hres : ∀ k ∈ ps.map Prod.fst, reserved k = false)
    (hfresh : ∀ k ∈ ps.map Prod.fst, k ∉ objKeys r) :
    objKeys (setFields r ps) = objKeys r ++ ps.map Prod.fst := by
  induction ps generalizing r with
  | nil => simp [setFields]
  | cons p rest ih =>
    obtain ⟨k, v⟩ := p
    simp only [List.map_cons, List.nodup_cons] at hnd
    simp only [setFields]
    have hknew : objKeys (setAttr r k v) = objKeys r ++ [k] :=
      objKeys_setAttr_new v hobj (hres k (by simp)) (hfresh k (by simp))
    rw [ih (setAttr_isObject hobj k v) hnd.2
      (fun k' hk' => hres k' (by simp [hk']))
      (fun k' hk' => by
        rw [hknew]
        simp only [List.mem_append, List.mem_singleton, not_or]
        exact ⟨hfresh k' (by simp [hk']), fun hkk => hnd.1 (hkk ▸ hk')⟩)]
    rw [hknew]
    simp

/-- Pointwise-correct lookups make `getattrs` return exactly the pairs. -/
theorem getattrs_of_pointwise {st : List (String × Value)} {qs : List (String × Value)}
    (h : ∀ p ∈ qs, lookupStore st p.1 = some p.2) :
    getattrs st (qs.map Prod.fst) = some qs := by
  induction qs with
  | nil => rfl
  | cons q rest ih =>
    obtain ⟨k, w⟩ := q
    simp only [List.map_cons, getattrs]
    rw [h (k, w) (by simp), ih (fun p hp => h p (by simp [hp]))]

/-- `len` of a record equals the length of its key list. -/
theorem objLen_eq (r : Value) : objLen r = (objKeys r).length := by
  cases r <;> rfl

/-- C1: for every record and every sequence of distinct non-reserved field
names assigned via `setField` in order `n1, ..., nk`, iteration yields
exactly `[n1, ..., nk]`; re-assigning a name already present leaves its
position in the iteration unchanged and only updates the value returned by
`getField`. -/
theorem sudsObject_field_order :
    (∀ (cn : Option String) (ps : List (String × Value)),
      (ps.map Prod.fst).Nodup →
      (∀ k ∈ ps.map Prod.fst, reserved k = false) →
      objKeys (factoryObject cn ps) = ps.map Prod.fst)
    ∧ (∀ (r : Value) (nm : String) (u : Value), nm ∈ objKeys r →
      objKeys (setAttr r nm u) = objKeys r ∧ getAttr (setAttr r nm u) nm = some u) := by
  constructor
  · intro cn ps hnd hres
    cases cn with
    | none =>
      show objKeys (setFields objectNew ps) = ps.map Prod.fst
      rw [objKeys_setFields (r := objectNew) rfl hnd hres
        (fun k _ => by simp [objectNew, objKeys])]
      simp [objectNew, objKeys]
    | some nm =>
      show objKeys (setFields (subNew nm) ps) = ps.map Prod.fst
      rw [objKeys_setFields (r := subNew nm) rfl hnd hres
        (fun k _ => by simp [subNew, objKeys])]
      simp [subNew, objKeys]
  · intro r nm u hmem
    have hobj : r.isObject = true := by
      cases r with
      | vobj c kl st => rfl
      | vnone => simp [objKeys] at hmem
      | vint k => simp [objKeys] at hmem
      | vstr s => simp [objKeys] at hmem
      | vlist xs => simp [objKeys] at hmem
      | vdict es => simp [objKeys] at hmem
    exact ⟨objKeys_setAttr_mem u hmem, getAttr_setAttr_self hobj nm u⟩

/-- Witness for C1 at a concrete record. -/
theorem sudsObject_field_order_witness :
    objKeys (factoryObject (some "phone") [("npa", .vint 410), ("nxx", .vint 555)])
      = ["npa", "nxx"]
    ∧ (objKeys (setAttr (factoryObject (some "phone")
          [("npa", .vint 410), ("nxx", .vint 555)]) "npa" (.vint 919))
        = ["npa", "nxx"]
      ∧ getAttr (setAttr (factoryObject (some "phone")
          [("npa", .vint 410), ("nxx", .vint 555)]) "npa" (.vint 919)) "npa"
        = some (.vint 919)) := by
  refine ⟨?_, ?_⟩
  · exact (sudsObject_field_order).1 (some "phone") [("npa", .vint 410), ("nxx", .vint 555)]
      (by decide) (by decide)
  · have h := (sudsObject_field_order).2 (factoryObject (some "phone")
      [("npa", .vint 410), ("nxx", .vint 555)]) "npa" (.vint 919) (by decide)
    refine ⟨?_, h.2⟩
    rw [h.1]
    decide

/-- C5: `getField` fails with `MissingFieldError` exactly on names never
assigned on the record; any assigned name, even one holding `None`, reads
back its stored value. -/
theorem getitem_missing_iff :
    (∀ (ps : List (String × Value)) (nm : String),
      getAttr (setFields objectNew ps) nm = none ↔
        (nm ∉ ps.map Prod.fst ∧ nm ≠ "__metadata__"))
    ∧ (∀ (r : Value) (nm : String) (u : Value) (qs : List (String × Value)),
      r.isObject = true → nm ∉ qs.map Prod.fst →
      getAttr (setFields (setAttr r nm u) qs) nm = some u) := by
  constructor
  · intro ps nm
    have hobj : (objectNew).isObject = true := rfl
    have hbase : (getAttr objectNew nm).isSome = true ↔ nm = "__metadata__" := by
      by_cases h : "__metadata__" = nm
      · subst h; simp [objectNew, getAttr, lookupStore]
      · have h2 : nm ≠ "__metadata__" := fun hh => h hh.symm
        simp [objectNew, getAttr, lookupStore, h, h2]
    constructor
    · intro hnone
      have : ¬ (getAttr (setFields objectNew ps) nm).isSome = true := by
        simp [hnone]
      rw [getAttr_setFields_isSome_iff hobj nm ps] at this
      push_neg at this
      exact ⟨this.2, fun hh => by simp [hbase.mpr hh] at this⟩
    · intro ⟨h1, h2⟩
      cases hg : getAttr (setFields objectNew ps) nm with
      | none => rfl
      | some w =>
        exfalso
        have : (getAttr (setFields objectNew ps) nm).isSome = true := by simp [hg]
        rw [getAttr_setFields_isSome_iff hobj nm ps] at this
        rcases this with h | h
        · exact h2 (hbase.mp h)
        · exact h1 h
  · intro r nm u qs hobj hnot
    rw [getAttr_setFields_frame hnot]
    exact getAttr_setAttr_self hobj nm u

/-- Witness for C5: an unassigned name reads as missing; an assigned name
holding `None` reads back `None`. -/
theorem getitem_missing_iff_witness :
    getAttr (setFields objectNew [("x", .vnone)]) "y" = none
    ∧ getAttr (setFields (setAttr objectNew "x" .vnone) []) "x" = some .vnone := by
  refine ⟨?_, ?_⟩
  · exact (getitem_missing_iff.1 [("x", .vnone)] "y").mpr (by decide)
  · exact getitem_missing_iff.2 objectNew "x" .vnone [] rfl (by decide)

/-- C7: after any sequence of `setField` operations, the key list has no
duplicates and no reserved names (though reserved names may occupy backing
storage), `len` equals the number of visible fields, and every assigned
name has a storage entry; all constructors start in that state. -/
theorem keylist_invariants :
    (∀ (r : Value) (ps : List (String × Value)),
      r.isObject = true → (objKeys r).Nodup → (∀ k ∈ objKeys r, reserved k = false) →
      ((objKeys (setFields r ps)).Nodup
        ∧ (∀ k ∈ objKeys (setFields r ps), reserved k = false)
        ∧ objLen (setFields r ps) = (objKeys (setFields r ps)).length
        ∧ ∀ p ∈ ps, (getAttr (setFields r ps) p.1).isSome = true))
    ∧ ((objKeys objectNew).Nodup ∧ ∀ k ∈ objKeys objectNew, reserved k = false)
    ∧ (∀ nm, (objKeys (subNew nm)).Nodup ∧ ∀ k ∈ objKeys (subNew nm), reserved k = false)
    ∧ (∀ nm u, (objKeys (propertyNew nm u)).Nodup
        ∧ ∀ k ∈ objKeys (propertyNew nm u), reserved k = false) := by
  refine ⟨?_, ?_, ?_, ?_⟩
  · intro r ps hobj hnd hres
    obtain ⟨h1, h2⟩ := keysInv_setFields ps hnd hres
    exact ⟨h1, h2, objLen_eq _, getAttr_setFields_assigned hobj ps⟩
  · exact ⟨by simp [objectNew, objKeys], by simp [objectNew, objKeys]⟩
  · intro nm
    exact ⟨by simp [subNew, objKeys], by simp [subNew, objKeys]⟩
  · intro nm u
    refine ⟨?_, ?_⟩
    · have : objKeys (propertyNew nm u) = ["value"] := rfl
      rw [this]; simp
    · have : objKeys (propertyNew nm u) = ["value"] := rfl
      rw [this]
      intro k hk
      have : k = "value" := by simpa using hk
      subst this
      decide
  

/-- Witness for C7: a record assigned a payload field and a reserved name. -/
theorem keylist_invariants_witness :
    (objKeys (setFields objectNew [("a", .vint 1), ("__x__", .vint 2)])).Nodup
    ∧ (∀ k ∈ objKeys (setFields objectNew [("a", .vint 1), ("__x__", .vint 2)]),
        reserved k = false)
    ∧ objLen (setFields objectNew [("a", .vint 1), ("__x__", .vint 2)])
      = (objKeys (setFields objectNew [("a", .vint 1), ("__x__", .vint 2)])).length
    ∧ ∀ p ∈ [(("a" : String), Value.vint 1), ("__x__", .vint 2)],
        (getAttr (setFields objectNew [("a", .vint 1), ("__x__", .vint 2)]) p.1).isSome
          = true :=
  keylist_invariants.1 objectNew [("a", .vint 1), ("__x__", .vint 2)] rfl
    (by simp [objectNew, objKeys]) (by simp [objectNew, objKeys])

/-- C10: construction creates exactly one level of metadata sidecar: plain
records, named records, and scalar boxes get a fresh `Metadata` sidecar,
while a `Metadata` record is built without one, so sidecar creation never
recurses. -/
theorem metadata_sidecar_once :
    getAttr objectNew "__metadata__" = some metadataNew
    ∧ (∀ nm, getAttr (subNew nm) "__metadata__" = some metadataNew)
    ∧ (∀ nm u, getAttr (propertyNew nm u) "__metadata__" = some metadataNew)
    ∧ getAttr metadataNew "__metadata__" = none := by
  exact ⟨rfl, fun nm => rfl, fun nm u => rfl, rfl⟩

/-- C9: the visible-item iteration of a scalar box (`Property.items`)
excludes the reserved `value` field: a freshly built box iterates as if
empty, and after assigning extra distinct non-reserved fields exactly those
extra fields appear. -/
theorem property_items_excludes_value :
    (∀ (nm : String) (u : Value), propertyItems (propertyNew nm u) = some [])
    ∧ (∀ (nm : String) (u : Value) (ps : List (String × Value)),
      (ps.map Prod.fst).Nodup →
      (∀ k ∈ ps.map Prod.fst, reserved k = false ∧ k ≠ "value") →
      propertyItems (setFields (propertyNew nm u) ps) = some ps) := by
  constructor
  · intro nm u
    rfl
  · intro nm u ps hnd hps
    have hobj0 : (propertyNew nm u).isObject = true := rfl
    have hkeys0 : objKeys (propertyNew nm u) = ["value"] := rfl
    have hkeys : objKeys (setFields (propertyNew nm u) ps) = "value" :: ps.map Prod.fst := by
      rw [objKeys_setFields hobj0 hnd (fun k hk => (hps k hk).1)
        (fun k hk => by simp [hkeys0, (hps k hk).2]), hkeys0]
      rfl
    have hval : getAttr (setFields (propertyNew nm u) ps) "value" = some u := by
      rw [getAttr_setFields_frame (by
        intro hmem
        exact (hps "value" hmem).2 rfl)]
      rfl
    have hmem : ∀ p ∈ ps, getAttr (setFields (propertyNew nm u) ps) p.1 = some p.2 := by
      intro p hp
      obtain ⟨k, w⟩ := p
      exact getAttr_setFields_mem hobj0 hnd hp
    obtain ⟨c', kl', st', hre⟩ : ∃ c kl st,
        setFields (propertyNew nm u) ps = .vobj c kl st := by
      have := setFields_isObject hobj0 ps
      cases hc : setFields (propertyNew nm u) ps <;> rw [hc] at this <;>
        simp [Value.isObject] at this
      exact ⟨_, _, _, rfl⟩
    rw [hre] at hkeys hval hmem
    simp only [objKeys] at hkeys
    simp only [getAttr] at hval hmem
    have hget : getattrs st' kl' = some (("value", u) :: ps) := by
      rw [hkeys]
      have : ("value" :: ps.map Prod.fst) = ((("value", u) :: ps).map Prod.fst) := by simp
      rw [this]
      exact getattrs_of_pointwise (by
        intro p hp
        rcases List.mem_cons.1 hp with h | h
        · subst h; exact hval
        · exact hmem p h)
    rw [hre]
    simp only [propertyItems, itemsOf, hget, Option.map_some']
    congr 1
    rw [List.filter_cons]
    have hcond : ((("value", u) : String × Value).1 != "value") = false := by simp
    rw [hcond]
    simp only [Bool.false_eq_true, if_false]
    exact List.filter_eq_self.mpr (by
      intro p hp
      simpa using (hps p.1 (by simp; exact ⟨p.2, by simpa using hp⟩)).2)

/-- Witness for C9 at a concrete scalar box with one extra field. -/
theorem property_items_excludes_value_witness :
    propertyItems (setFields (propertyNew "size" (.vint 1)) [("units", .vstr "m")])
      = some [("units", .vstr "m")] :=
  property_items_excludes_value.2 "size" (.vint 1) [("units", .vstr "m")]
    (by decide) (by decide)

/-- Rendering a non-complex value ignores the indent and newline
arguments. -/
theorem processv_indep {v : Value} (hc : complexv v = .ok false) (n n' : Int)
    (nl nl' : Bool) : processv v n nl = processv v n' nl' := by
  cases v with
  | vnone => rfl
  | vint k => rfl
  | vstr s => rfl
  | vlist xs =>
    rw [processv_plain n nl hc (by simp [Value.isPropertyInst]) (by simp),
      processv_plain n' nl' hc (by simp [Value.isPropertyInst]) (by simp)]
  | vdict es =>
    rw [processv_plain n nl hc (by simp [Value.isPropertyInst]) (by simp),
      processv_plain n' nl' hc (by simp [Value.isPropertyInst]) (by simp)]
  | vobj c kl st =>
    cases c with
    | prop nm => rw [processv_prop n nl hc, processv_prop n' nl' hc]
    | base =>
      rw [processv_plain n nl hc (by simp [Value.isPropertyInst]) (by simp),
        processv_plain n' nl' hc (by simp [Value.isPropertyInst]) (by simp)]
    | metadata =>
      rw [processv_plain n nl hc (by simp [Value.isPropertyInst]) (by simp),
        processv_plain n' nl' hc (by simp [Value.isPropertyInst]) (by simp)]
    | sub nm =>
      rw [processv_plain n nl hc (by simp [Value.isPropertyInst]) (by simp),
        processv_plain n' nl' hc (by simp [Value.isPropertyInst]) (by simp)]

/-- If the complex item loop reports false, every visible field value is
non-complex. -/
theorem complexKeysv_false_mem {st : List (String × Value)} {kl : List String}
    (h : complexKeysv st kl = .ok false) :
    ∀ k ∈ kl, ∀ u, lookupStore st k = some u → complexv u = .ok false := by
  induction kl with
  | nil => simp
  | cons k0 ks ih =>
    rw [complexKeysv_cons] at h
    intro k hk u hu
    cases hlk : lookupStore st k0 with
    | none => rw [hlk] at h; simp at h
    | some u0 =>
      rw [hlk] at h
      dsimp only at h
      cases hc0 : complexv u0 with
      | out => rw [hc0] at h; simp at h
      | err => rw [hc0] at h; simp at h
      | ok b =>
        rw [hc0] at h
        cases b with
        | true => simp at h
        | false =>
          rcases List.mem_cons.1 hk with rfl | hk'
          · rw [hlk] at hu; cases hu; exact hc0
          · exact ih h k hk' u hu

/-- Characterisation of the complex item loop on a suds object: it reports
true exactly when some visible field value is complex. -/
theorem complexKeysv_iff {st : List (String × Value)} {kl : List String}
    (hk : ∀ k ∈ kl, (lookupStore st k).isSome) (hwf : pairsWF st = true) :
    (complexKeysv st kl = .ok true ↔
      ∃ k ∈ kl, ∃ u, lookupStore st k = some u ∧ complexv u = .ok true) := by
  induction kl with
  | nil => simp [complexKeysv_nil]
  | cons k0 ks ih =>
    rw [complexKeysv_cons]
    have hk0 := hk k0 (by simp)
    obtain ⟨u0, hu0⟩ : ∃ u, lookupStore st k0 = some u := by
      cases hlk : lookupStore st k0 with
      | none => rw [hlk] at hk0; simp at hk0
      | some u => exact ⟨u, rfl⟩
    rw [hu0]
    dsimp only
    obtain ⟨b, hb⟩ := complexv_total (pairsWF_lookup hwf hu0)
    rw [hb]
    cases b with
    | true =>
      simp only [true_iff]
      exact ⟨k0, by simp, u0, hu0, hb⟩
    | false =>
      rw [ih (fun k hk' => hk k (by simp [hk']))]
      constructor
      · rintro ⟨k, hkm, u, hu, hcu⟩
        exact ⟨k, by simp [hkm], u, hu, hcu⟩
      · rintro ⟨k, hkm, u, hu, hcu⟩
        rcases List.mem_cons.1 hkm with rfl | hkm'
        · rw [hu0] at hu; cases hu; rw [hb] at hcu; simp at hcu
        · exact ⟨k, hkm', u, hu, hcu⟩

/-- Characterisation of the complex pair loop on a dict. -/
theorem complexPairsv_iff {es : List (String × Value)} (hwf : pairsWF es = true) :
    (complexPairsv es = .ok true ↔ ∃ p ∈ es, complexv p.2 = .ok true) := by
  induction es with
  | nil => simp [complexPairsv_nil]
  | cons p es ih =>
    obtain ⟨k, u⟩ := p
    rw [complexPairsv_cons]
    rw [pairsWF_cons] at hwf
    simp only [Bool.and_eq_true] at hwf
    obtain ⟨b, hb⟩ := complexv_total hwf.1
    rw [hb]
    cases b with
    | true =>
      simp only [true_iff]
      exact ⟨(k, u), by simp, hb⟩
    | false =>
      rw [ih hwf.2]
      constructor
      · rintro ⟨q, hq, hcq⟩
        exact ⟨q, by simp [hq], hcq⟩
      · rintro ⟨q, hq, hcq⟩
        rcases List.mem_cons.1 hq with rfl | hq'
        · rw [hb] at hcq; simp at hcq
        · exact ⟨q, hq', hcq⟩

/-- Characterisation of the complex element loop on a list. -/
theorem complexListv_iff {xs : List Value} (hwf : listWF xs = true) :
    (complexListv xs = .ok true ↔ ∃ x ∈ xs, complexv x = .ok true) := by
  induction xs with
  | nil => simp [complexListv_nil]
  | cons x xs ih =>
    rw [complexListv_cons]
    rw [listWF_cons] at hwf
    simp only [Bool.and_eq_true] at hwf
    obtain ⟨b, hb⟩ := complexv_total hwf.1
    rw [hb]
    cases b with
    | true =>
      simp only [true_iff]
      exact ⟨x, by simp, hb⟩
    | false =>
      rw [ih hwf.2]
      constructor
      · rintro ⟨y, hy, hcy⟩
        exact ⟨y, by simp [hy], hcy⟩
      · rintro ⟨y, hy, hcy⟩
        rcases List.mem_cons.1 hy with rfl | hy'
        · rw [hb] at hcy; simp at hcy
        · exact ⟨y, hy', hcy⟩

/-- C2: the complexity predicate holds on a record or mapping exactly when
it has more than one visible field or some field value is complex, on a
sequence exactly when it has more than one element or some element is
complex, and never on anything else. -/
theorem printer_complex_iff :
    ∀ v : Value, valWF v = true →
      (complexv v = .ok true ↔
        (match v with
         | .vobj _ kl st => 1 < kl.length
             ∨ ∃ k ∈ kl, ∃ u, lookupStore st k = some u ∧ complexv u = .ok true
         | .vdict es => 1 < es.length ∨ ∃ p ∈ es, complexv p.2 = .ok true
         | .vlist xs => 1 < xs.length ∨ ∃ x ∈ xs, complexv x = .ok true
         | _ => False)) := by
  intro v hwf
  cases v with
  | vnone => simp [complexv_none]
  | vint k => simp [complexv_int]
  | vstr s => simp [complexv_str]
  | vobj c kl st =>
    rw [complexv_obj]
    rw [valWF_obj] at hwf
    simp only [Bool.and_eq_true, List.all_eq_true] at hwf
    by_cases hl : 1 < kl.length
    · simp [hl]
    · simp only [hl, if_false, false_or]
      exact complexKeysv_iff (fun k hk => hwf.1.2 k hk) hwf.2
  | vdict es =>
    rw [complexv_dict]
    rw [valWF_dict] at hwf
    by_cases hl : 1 < es.length
    · simp [hl]
    · simp only [hl, if_false, false_or]
      exact complexPairsv_iff hwf
  | vlist xs =>
    rw [complexv_list]
    rw [valWF_list] at hwf
    by_cases hl : 1 < xs.length
    · simp [hl]
    · simp only [hl, if_false, false_or]
      exact complexListv_iff hwf

/-- Witness for C2: a record with two scalar fields is complex. -/
theorem printer_complex_iff_witness :
    complexv (.vobj .base ["a", "b"]
      [("__metadata__", metadataNew), ("a", .vint 1), ("b", .vint 2)]) = .ok true := by
  have h := printer_complex_iff (.vobj .base ["a", "b"]
    [("__metadata__", metadataNew), ("a", .vint 1), ("b", .vint 2)]) (by decide)
  exact h.mpr (Or.inl (by decide))

/-- C3 counterexample: the rendering of the example `phone` record does not
put the closing brace at column 0; the claimed text is not produced. -/
theorem phone_render_claim_counterexample :
    printerTostr phoneExample ≠
      .ok "(phone)\x7b\n   npa = (410)\n   nxx = (555)\n   number = (5138)\n\x7d" := by
  decide

/-- C3 (amended): the example `phone` record renders with each field line
indented by exactly three spaces and the closing brace preceded by a single
space (the printer's indent of level 0 is one space, not empty). -/
theorem phone_render_exact :
    printerTostr phoneExample =
      .ok "(phone)\x7b\n   npa = (410)\n   nxx = (555)\n   number = (5138)\n \x7d" := rfl

/-- C4 counterexample: a scalar box wrapping the complex value `[1, 2]` is
itself complex and renders as a brace block, not in the
`property:name=...` form the claim requires for every scalar box. -/
theorem property_render_complex_counterexample :
    processv fooBox 0 false
      = .ok "(foo)\x7b\n         value[] = \n            (1),\n            (2),\n      \x7d"
    ∧ processv (.vlist [.vint 1, .vint 2]) 0 false = .ok "\n      (1),\n      (2),"
    ∧ ("(foo)\x7b\n         value[] = \n            (1),\n            (2),\n      \x7d" : String)
        ≠ "property:" ++ "foo" ++ "=" ++ "\n      (1),\n      (2)," := by
  exact ⟨rfl, rfl, by decide⟩

/-- C4 (amended): every non-complex scalar box named `nm` (its reserved
`value` field among its keys) renders as `property:nm=` followed by the
rendering of its wrapped value at the same indent without a forced newline;
complex boxes are excluded, since they render as brace blocks. -/
theorem property_render_noncomplex :
    ∀ (nm : String) (kl : List String) (st : List (String × Value)) (n : Int) (nl : Bool)
      (u : Value),
      valWF (.vobj (.prop nm) kl st) = true →
      "value" ∈ kl →
      complexv (.vobj (.prop nm) kl st) = .ok false →
      lookupStore st "value" = some u →
      ∃ s, processv (.vobj (.prop nm) kl st) n nl = .ok ("property:" ++ nm ++ "=" ++ s)
        ∧ processv u n false = .ok s := by
  intro nm kl st n nl u hwf hvmem hc hu
  have hwfu : valWF u = true := by
    rw [valWF_obj] at hwf
    simp only [Bool.and_eq_true] at hwf
    exact pairsWF_lookup hwf.2 hu
  obtain ⟨s, hs⟩ := processv_total 0 false hwfu
  have hcu : complexv u = .ok false := by
    rw [complexv_obj] at hc
    by_cases hl : 1 < kl.length
    · simp [hl] at hc
    · simp only [hl, if_false] at hc
      exact complexKeysv_false_mem hc "value" hvmem u hu
  refine ⟨s, ?_, ?_⟩
  · rw [processv_prop n nl hc, printPropertyv_obj, hu]
    dsimp only
    rw [hs]
    rfl
  · rw [processv_indep hcu n 0 false false]
    exact hs

/-- Witness for C4 (amended): the scalar box `length` wrapping `5` renders
as `property:length=(5)`. -/
theorem property_render_noncomplex_witness :
    processv (.vobj (.prop "length") ["value"]
        [("__metadata__", metadataNew), ("value", .vint 5)]) 0 false
      = .ok ("property:" ++ "length" ++ "=" ++ "(5)")
    ∧ processv (.vint 5) 0 false = .ok "(5)" := by
  obtain ⟨s, h1, h2⟩ := property_render_noncomplex "length" ["value"]
    [("__metadata__", metadataNew), ("value", .vint 5)] 0 false (.vint 5)
    (by decide) (by decide) (by decide) rfl
  have hs : Res.ok s = (.ok "(5)" : Res String) := h2.symm.trans rfl
  have hs' : s = "(5)" := by
    injection hs
  subst hs'
  exact ⟨h1, h2⟩

/-- C6 counterexample: a record with the single non-complex field `x = 5`
renders as the mapping form, not as a parenthesised `(value)`-style form. -/
theorem onefield_render_counterexample :
    processv oneFieldRec 0 false = .ok "\x7b\x27x\x27: 5\x7d"
    ∧ ("\x7b\x27x\x27: 5\x7d" : String) ≠ "(" ++ sudsTostr (.vint 5) ++ ")" := by
  exact ⟨rfl, by decide⟩

/-- C6 (amended): a non-`Property` record with zero fields renders as
`<empty>`; with one non-complex field it renders inline as the natural
string form of its one-entry mapping (not a `(value)`-style form); with two
or more fields it is complex, and every complex record renders as a
multi-line brace block whose closing brace follows a newline. -/
theorem record_render_inline_or_block :
    ∀ (c : Cls) (kl : List String) (st : List (String × Value)) (n : Int) (nl : Bool),
      Value.isPropertyInst (.vobj c kl st) = false →
      ((kl = [] → processv (.vobj c kl st) n nl = .ok "<empty>")
       ∧ (∀ k u, kl = [k] → lookupStore st k = some u → complexv u = .ok false →
           processv (.vobj c kl st) n nl = .ok (sudsTostr (.vdict [(k, u)])))
       ∧ (1 < kl.length → complexv (.vobj c kl st) = .ok true)
       ∧ (complexv (.vobj c kl st) = .ok true → valWF (.vobj c kl st) = true →
           ∃ a body, processv (.vobj c kl st) n nl
             = .ok (a ++ "\x7b" ++ body ++ "\n" ++ indent (n + 2) ++ "\x7d"))) := by
  intro c kl st n nl hprop
  refine ⟨?_, ?_, ?_, ?_⟩
  · intro hkl
    subst hkl
    have hc : complexv (.vobj c [] st) = .ok false := by
      rw [complexv_obj]
      simp [complexKeysv_nil]
    rw [processv_plain n nl hc hprop (by simp)]
    simp [asdictVal, getattrs, processTail]
  · intro k u hkl hu hcu
    subst hkl
    have hc : complexv (.vobj c [k] st) = .ok false := by
      rw [complexv_obj]
      simp only [List.length_cons, List.length_nil]
      rw [if_neg (by omega), complexKeysv_cons, hu]
      dsimp only
      rw [hcu, complexKeysv_nil]
    rw [processv_plain n nl hc hprop (by simp)]
    simp only [asdictVal, getattrs, hu]
    simp [processTail]
  · intro hlen
    rw [complexv_obj, if_pos hlen]
  · intro hc hwf
    rw [processv_complex_obj n nl hc (by simp [Value.isObject])]
    rw [printComplexv_obj]
    rw [valWF_obj] at hwf
    simp only [Bool.and_eq_true, List.all_eq_true] at hwf
    obtain ⟨body, hbody⟩ := (totalAll (rankP st + kl.length)).2.2.2.2.2.2.1 st kl (n + 2)
      le_rfl (fun k hk => hwf.1.2 k hk) hwf.2
    rw [hbody]
    exact ⟨(if nl then "\n" ++ indent (n + 2) else "")
      ++ (if c = Cls.base then "" else "(" ++ c.clsName ++ ")"), body, rfl⟩

/-- Witness for C6: an empty record renders `<empty>`, a one-field record
renders as its inline mapping form, and a two-field record is complex. -/
theorem record_render_inline_or_block_witness :
    processv (.vobj .base [] [("__metadata__", metadataNew)]) 0 false = .ok "<empty>"
    ∧ processv (.vobj .base ["x"] [("__metadata__", metadataNew), ("x", .vint 5)]) 0 false
        = .ok (sudsTostr (.vdict [("x", .vint 5)]))
    ∧ complexv (.vobj .base ["x", "y"]
        [("__metadata__", metadataNew), ("x", .vint 1), ("y", .vint 2)]) = .ok true := by
  refine ⟨?_, ?_, ?_⟩
  · exact (record_render_inline_or_block .base [] [("__metadata__", metadataNew)]
      0 false (by decide)).1 rfl
  · exact (record_render_inline_or_block .base ["x"]
      [("__metadata__", metadataNew), ("x", .vint 5)] 0 false (by decide)).2.1
      "x" (.vint 5) rfl rfl rfl
  · exact (record_render_inline_or_block .base ["x", "y"]
      [("__metadata__", metadataNew), ("x", .vint 1), ("y", .vint 2)] 0 false
      (by decide)).2.2.1 (by decide)

/-- C8: rendering a well-formed record never raises `MissingFieldError`
(every visited field resolves in storage), and records built through the
constructors and `setField` from well-formed values are well-formed. -/
theorem render_never_fails :
    (∀ (v : Value) (n : Int) (nl : Bool), valWF v = true → ∃ s, processv v n nl = .ok s)
    ∧ valWF objectNew = true
    ∧ valWF metadataNew = true
    ∧ (∀ nm, valWF (subNew nm) = true)
    ∧ (∀ nm u, valWF u = true → valWF (propertyNew nm u) = true)
    ∧ (∀ r ps, valWF r = true → (∀ p ∈ ps, valWF p.2 = true) →
        valWF (setFields r ps) = true) := by
  refine ⟨fun v n nl h => processv_total n nl h, by decide, by decide, ?_, ?_, ?_⟩
  · intro nm
    show valWF (.vobj (.sub nm) [] [("__metadata__", metadataNew)]) = true
    rw [valWF_obj]
    simp only [List.all_nil, Bool.and_true, Bool.true_and]
    rw [pairsWF_cons]
    simp [pairsWF_nil]
    decide
  · intro nm u hu
    show valWF (.vobj (.prop nm) ["value"]
      [("__metadata__", metadataNew), ("value", u)]) = true
    rw [valWF_obj]
    rw [pairsWF_cons, pairsWF_cons]
    simp only [pairsWF_nil, Bool.and_true]
    simp [lookupStore, hu]
    decide
  · intro r ps hr hps
    exact valWF_setFields hr hps

/-- Witness for C8: a concrete record renders successfully. -/
theorem render_never_fails_witness :
    processv (setFields objectNew [("a", .vnone)]) 3 true = .ok "\x7b\x27a\x27: None\x7d" := by
  obtain ⟨s, hs⟩ := render_never_fails.1 (setFields objectNew [("a", .vnone)]) 3 true
    (render_never_fails.2.2.2.2.2 objectNew [("a", .vnone)] (by decide) (by decide))
  exact hs.trans (hs.symm.trans rfl)
